import Mathlib

/-!
Verification of the `cfgs` dotfiles manager (`cmd/cfgs/main.go`).

The development shallowly embeds the pure logic of the program:

* the string/path helpers (`strings.TrimSpace`, `path.Clean`,
  `filepath.Join`/`Dir`/`Rel`, `normalizeManagedPath`, `isMetadataPath`),
* the glob ignore matcher (`globToRegex` + `shouldIgnorePath`),
* the reconciliation engine (`cmdDoctorWithRepo`, its per-path managed
  pass and `reconcileOrphanRepoSymlinks`),
* the track/untrack helpers (`trackSelections` loop body,
  `ensureLiveCopyForRemove`, `removeEmptyDirsUpward`, `cmdRemove` loop body).

The filesystem is modelled as association lists from cleaned relative
paths to entries; symlink resolution is fuel-bounded chain following,
mirroring the loop limit of `filepath.EvalSymlinks`.  All target paths
run on Linux, where `filepath.Separator = '/'`, `filepath.ToSlash` is the
identity and `filepath.Clean` agrees with `path.Clean`.
-/

set_option autoImplicit false

deriving instance DecidableEq for Except

namespace Cfgs

/-! ### Characters and strings -/

/-- Mirrors Go `unicode.IsSpace` (the Unicode White_Space property). -/
def isSpaceGo (c : Char) : Bool :=
  c.toNat = 9 || c.toNat = 10 || c.toNat = 11 || c.toNat = 12 || c.toNat = 13 ||
  c.toNat = 32 || c.toNat = 0x85 || c.toNat = 0xA0 || c.toNat = 0x1680 ||
  (0x2000 ≤ c.toNat && c.toNat ≤ 0x200A) || c.toNat = 0x2028 || c.toNat = 0x2029 ||
  c.toNat = 0x202F || c.toNat = 0x205F || c.toNat = 0x3000

/-- Mirrors Go `strings.TrimSpace` at the character-list level. -/
def trimSpaceL (l : List Char) : List Char :=
  ((l.dropWhile isSpaceGo).reverse.dropWhile isSpaceGo).reverse

/-- Mirrors Go `strings.TrimSpace`. -/
def trimSpace (s : String) : String :=
  ⟨trimSpaceL s.data⟩

/-- Split a character list on a separator character (like `strings.Split`). -/
def splitSep (sep : Char) : List Char → List (List Char)
  | [] => [[]]
  | c :: cs =>
    let r := splitSep sep cs
    if c = sep then [] :: r
    else
      match r with
      | [] => [[c]]
      | h :: t => (c :: h) :: t

/-- Join character lists with a separator (like `strings.Join`). -/
def joinSep (sep : Char) : List (List Char) → List Char
  | [] => []
  | [p] => p
  | p :: ps => p ++ sep :: joinSep sep ps

/-- `strings.HasPrefix`. -/
def strStartsWith (s pre : String) : Bool :=
  pre.data.isPrefixOf s.data

/-- Check whether `needle` occurs as a contiguous sublist of `hay`. -/
def isInfixOfL (needle : List Char) : List Char → Bool
  | [] => needle.isPrefixOf []
  | c :: t => needle.isPrefixOf (c :: t) || isInfixOfL needle t

/-- `strings.Contains`. -/
def strContainsSub (s sub : String) : Bool :=
  isInfixOfL sub.data s.data

/-! ### Lexical path algebra (`path.Clean` and friends) -/

/-- The `..` path element. -/
def ddot : List Char := ['.', '.']

/-- One step of `path.Clean`'s `..`-resolution: the `case ".."` of the
element loop in Go's lazybuf algorithm, after empty and `.` elements have
been discarded. -/
def dotsStep (rooted : Bool) (acc : List (List Char)) (c : List Char) : List (List Char) :=
  if c = ddot then
    if acc = [] then (if rooted then acc else [c])
    else if acc.getLast? = some ddot then acc ++ [c]
    else acc.dropLast
  else acc ++ [c]

/-- Resolve `..` elements left to right, as `path.Clean` does. -/
def resolveDots (rooted : Bool) (parts : List (List Char)) : List (List Char) :=
  parts.foldl (dotsStep rooted) []

/-- Go `path.Clean` on character lists with the rootedness precomputed:
split on `/`, drop empty and `.` elements, resolve `..`, and re-render
(an empty result becomes `.` or `/`). -/
def pathCleanCore (rooted : Bool) (l : List Char) : List Char :=
  let parts := (splitSep '/' l).filter (fun p => !(p == [] || p == ['.']))
  let res := resolveDots rooted parts
  if res = [] then (if rooted then ['/'] else ['.'])
  else (if rooted then '/' :: joinSep '/' res else joinSep '/' res)

/-- Go `path.Clean` on character lists. -/
def pathCleanL (l : List Char) : List Char :=
  pathCleanCore (l.head? == some '/') l

/-- Go `path.Clean` (equals `filepath.Clean` on Linux). -/
def pathClean (s : String) : String :=
  ⟨pathCleanL s.data⟩

/-- Go `filepath.ToSlash`: the identity on Linux, where the separator is `/`. -/
def toSlash (s : String) : String := s

/-! ### The path classifier (`normalizeManagedPath`, `isMetadataPath`) -/

/-- Mirrors `isMetadataPath`. -/
def isMetadataPath (rel : String) : Bool :=
  rel == ".git" || strStartsWith rel ".git/"

/-- Mirrors `normalizeManagedPath`. -/
def normalizeManagedPath (rel : String) : Except String String :=
  let rel1 := toSlash (trimSpace rel)
  let rel2 := pathClean rel1
  if rel2 == "." || rel2 == "" then .error "invalid path"
  else if strStartsWith rel2 "/" then .error "absolute paths are not allowed"
  else if strStartsWith rel2 "../" || strContainsSub rel2 "/../" then
    .error "path traversal is not allowed"
  else if isMetadataPath rel2 then .error "path is reserved"
  else .ok rel2

example : pathClean "a/b/../c" = "a/c" := by decide
example : pathClean "/a/../../b" = "/b" := by decide
example : pathClean "//a//b/" = "/a/b" := by decide
example : pathClean "" = "." := by decide
example : pathClean "./x" = "x" := by decide
example : pathClean ".." = ".." := by decide
example : pathClean "a /" = "a " := by decide
example : normalizeManagedPath "/etc/passwd" = .error "absolute paths are not allowed" := by decide
example : normalizeManagedPath "../../etc/passwd" = .error "path traversal is not allowed" := by decide
example : normalizeManagedPath ".git" = .error "path is reserved" := by decide
example : normalizeManagedPath ".git/config" = .error "path is reserved" := by decide
example : normalizeManagedPath "./nvim/init.lua" = .ok "nvim/init.lua" := by decide
example : normalizeManagedPath ".." = .ok ".." := by decide
example : normalizeManagedPath "a /" = .ok "a " := by decide
example : normalizeManagedPath "a " = .ok "a" := by decide
example : normalizeManagedPath "nvim/init.lua" = .ok "nvim/init.lua" := by decide

/-! ### The glob ignore matcher (`globToRegex`, `shouldIgnorePath`)

`globToRegex` emits an anchored regular expression built from exactly four
atom shapes: an escaped literal character, `[^/]*` for `*`, `.*` for `**`
and `[^/]` for `?`.  We embed the compiled matcher as the corresponding
token list together with a backtracking anchored matcher. -/

inductive GlobTok where
  | lit (c : Char)
  | star
  | dstar
  | anyc
  deriving DecidableEq, Repr

/-- The token stream produced by the character loop of `globToRegex`
(`**` is consumed greedily as one token, like the `i++` in the source). -/
def globTokens : List Char → List GlobTok
  | [] => []
  | '*' :: '*' :: rest => .dstar :: globTokens rest
  | '*' :: rest => .star :: globTokens rest
  | '?' :: rest => .anyc :: globTokens rest
  | c :: rest => .lit c :: globTokens rest

/-- Mirrors `globToRegex`: trims the pattern, rejects an empty pattern and
otherwise yields the (tokenized) anchored regular expression. -/
def globToRegexTokens (pattern : String) : Except String (List GlobTok) :=
  let p := trimSpace pattern
  if p == "" then .error "empty pattern" else .ok (globTokens p.data)

/-- Anchored matching of a token list against a character list: the
semantics of `regexp.MatchString` for the `^…$` expressions emitted by
`globToRegex` (`lit c` matches one literal character, `anyc` one
non-separator character, `star` a run of non-separator characters and
`dstar` any run of characters). -/
def globMatchAux : Nat → List GlobTok → List Char → Bool
  | 0, _, _ => false
  | _ + 1, [], s => s.isEmpty
  | fuel + 1, .lit c :: ts, s =>
    match s with
    | [] => false
    | c2 :: s2 => c2 = c && globMatchAux fuel ts s2
  | fuel + 1, .anyc :: ts, s =>
    match s with
    | [] => false
    | c2 :: s2 => c2 ≠ '/' && globMatchAux fuel ts s2
  | fuel + 1, .star :: ts, s =>
    globMatchAux fuel ts s ||
      (match s with
       | [] => false
       | c2 :: s2 => c2 ≠ '/' && globMatchAux fuel (.star :: ts) s2)
  | fuel + 1, .dstar :: ts, s =>
    globMatchAux fuel ts s ||
      (match s with
       | [] => false
       | _ :: s2 => globMatchAux fuel (.dstar :: ts) s2)

def globMatch (ts : List GlobTok) (s : List Char) : Bool :=
  globMatchAux (ts.length + s.length + 1) ts s

/-- `strings.TrimPrefix`. -/
def trimPrefixStr (s pre : String) : String :=
  if strStartsWith s pre then ⟨s.data.drop pre.data.length⟩ else s

/-- `strings.ReplaceAll(p, "\\", "/")`. -/
def replaceBackslash (s : String) : String :=
  ⟨s.data.map (fun c => if c = '\\' then '/' else c)⟩

/-- Byte-lexicographic comparison, the order used by Go `sort.Strings`
(UTF-8 byte order coincides with code-point order). -/
def charListLe : List Char → List Char → Bool
  | [], _ => true
  | _ :: _, [] => false
  | a :: as, b :: bs => if a = b then charListLe as bs else decide (a.toNat < b.toNat)

def strLeGo (a b : String) : Bool := charListLe a.data b.data

def insertSorted (x : String) : List String → List String
  | [] => [x]
  | y :: ys => if strLeGo x y then x :: y :: ys else y :: insertSorted x ys

/-- `sort.Strings`. -/
def sortStrings (l : List String) : List String := l.foldr insertSorted []

def dedupAdj : List String → List String
  | [] => []
  | [x] => [x]
  | x :: y :: t => if x == y then dedupAdj (y :: t) else x :: dedupAdj (y :: t)

/-- Mirrors `unique` (sort, then drop adjacent duplicates). -/
def uniqueGo (values : List String) : List String := dedupAdj (sortStrings values)

/-- Mirrors `sanitizeIgnoreGlobs`. -/
def sanitizeIgnoreGlobs (patterns : List String) : List String :=
  let out := patterns.filterMap (fun pattern =>
    let p := trimSpace pattern
    if p == "" then none else some (trimPrefixStr (replaceBackslash p) "./"))
  uniqueGo (sortStrings out)

/-- Mirrors `compileGlobMatchers`: sanitize, then compile each pattern. -/
def compileGlobMatchers (patterns : List String) : Except String (List (List GlobTok)) :=
  (sanitizeIgnoreGlobs patterns).mapM globToRegexTokens

/-- Mirrors `shouldIgnorePath` over compiled matchers. -/
def shouldIgnorePath (rel : String) (isDir : Bool) (matchers : List (List GlobTok)) : Bool :=
  let rel2 := trimSpace (toSlash rel)
  if rel2 == "" || rel2 == "." then false
  else matchers.any (fun m =>
    globMatch m rel2.data || (isDir && globMatch m (rel2.data ++ ['/'])))

example : compileGlobMatchers ["node_modules/**"] =
    .ok [globTokens "node_modules/**".data] := by decide
example : shouldIgnorePath "node_modules/pkg/index.js" false [globTokens "node_modules/**".data] = true := by decide
example : shouldIgnorePath "node_modules" false [globTokens "node_modules/**".data] = false := by decide
example : shouldIgnorePath "node_modules" true [globTokens "node_modules/**".data] = true := by decide
example : shouldIgnorePath "a/b/node_modules" false [globTokens "**/node_modules".data] = true := by decide
example : shouldIgnorePath "node_modules" false [globTokens "**/node_modules".data] = false := by decide
example : shouldIgnorePath "node_modules" true [globTokens "**/node_modules".data] = false := by decide

/-! ### More lexical path operations (`filepath` on Linux) -/

/-- `filepath.IsAbs` on Linux. -/
def isAbs (s : String) : Bool := strStartsWith s "/"

/-- `filepath.Join` of two elements on Linux: concatenate the non-empty
elements with `/` and `Clean` the result. -/
def pathJoin (a b : String) : String :=
  if a == "" then pathClean b
  else if b == "" then pathClean a
  else pathClean ⟨a.data ++ '/' :: b.data⟩

/-- `filepath.Dir` on Linux: everything up to and including the final
separator, cleaned (`.` when there is no separator). -/
def pathDir (s : String) : String :=
  pathClean ⟨(s.data.reverse.dropWhile (fun c => c ≠ '/')).reverse⟩

/-- The elements of a cleaned path (empty for `/` and for the empty string). -/
def pathComponents (s : String) : List (List Char) :=
  (splitSep '/' s.data).filter (fun p => !(p == []))

def commonPrefixLen : List (List Char) → List (List Char) → Nat
  | a :: as, b :: bs => if a = b then commonPrefixLen as bs + 1 else 0
  | _, _ => 0

/-- `filepath.Rel` on Linux: clean both paths, require both absolute or
both relative, position at the first differing element, refuse a remaining
`..` base element, and otherwise climb with `..` elements before
descending into the target remainder. -/
def pathRel (basepath targpath : String) : Except String String :=
  let base := pathClean basepath
  let targ := pathClean targpath
  if base == targ then .ok "."
  else
    let base2 := if base == "." then "" else base
    if isAbs base2 != isAbs targ then .error "Rel: cant make relative"
    else
      let bs := pathComponents base2
      let ts := pathComponents targ
      let k := commonPrefixLen bs ts
      let brest := bs.drop k
      let trest := ts.drop k
      if brest.head? = some ddot then .error "Rel: cant make relative"
      else .ok ⟨joinSep '/' (brest.map (fun _ => ddot) ++ trest)⟩

/-- Mirrors `pathWithin`. -/
def pathWithin (base candidate : String) : Except String Bool :=
  match pathRel (pathClean base) (pathClean candidate) with
  | .error e => .error e
  | .ok rel =>
    if rel == "." then .ok true
    else if rel == ".." || strStartsWith rel "../" then .ok false
    else .ok true

example : pathRel "/r" "/r/a/b" = .ok "a/b" := by decide
example : pathRel "/r" "/q/a" = .ok "../q/a" := by decide
example : pathWithin "/r" "/r/a/b" = .ok true := by decide
example : pathWithin "/r" "/r" = .ok true := by decide
example : pathWithin "/r" "/r/../q" = .ok false := by decide
example : pathDir "/x/y/z" = "/x/y" := by decide
example : pathJoin "/x/y" "../z" = "/x/z" := by decide

/-! ### Filesystem model

Both trees are modelled as association lists from cleaned relative paths
to leaf entries (directories are implicit, except that an opaque directory
can itself appear as a leaf entry).  `repoDirs` records existing
directories inside the repository, for `removeEmptyDirsUpward`.  Symlink
entries store the raw link target exactly as `os.Readlink` would return
it; resolution (`os.Stat`, `filepath.EvalSymlinks`, `os.ReadFile` through
links) is fuel-bounded chain following, mirroring the kernel's link
nesting limit. -/

inductive FsEntry where
  | file (content : String)
  | symlink (target : String)
  | dir
  | special
  deriving DecidableEq, Repr

structure FsState where
  repo : List (String × FsEntry)
  repoDirs : List String
  live : List (String × FsEntry)
  deriving DecidableEq, Repr

/-- The fixed locations: absolute cleaned repository root and absolute
cleaned configuration (live) root. -/
structure Env where
  repoPath : String
  xdg : String
  deriving DecidableEq, Repr

def lookupA (k : String) : List (String × FsEntry) → Option FsEntry
  | [] => none
  | (k2, v2) :: t => if k2 = k then some v2 else lookupA k t

def updateA (k : String) (v : FsEntry) : List (String × FsEntry) → List (String × FsEntry)
  | [] => [(k, v)]
  | (k2, v2) :: t => if k2 = k then (k, v) :: t else (k2, v2) :: updateA k v t

def eraseA (k : String) : List (String × FsEntry) → List (String × FsEntry)
  | [] => []
  | (k2, v2) :: t => if k2 = k then t else (k2, v2) :: eraseA k t

inductive Loc where
  | repo (rel : String)
  | live (rel : String)
  | outside
  deriving DecidableEq, Repr

/-- Which modelled tree an absolute path belongs to, and at which relative
key; paths outside both trees are not modelled. -/
def locate (env : Env) (p : String) : Loc :=
  if pathWithin env.repoPath p = .ok true then
    match pathRel env.repoPath p with
    | .ok r => .repo r
    | .error _ => .outside
  else if pathWithin env.xdg p = .ok true then
    match pathRel env.xdg p with
    | .ok r => .live r
    | .error _ => .outside
  else .outside

/-- The result of `os.Stat`: a resolved non-symlink entry at its fully
resolved path, "does not exist", or another error. -/
inductive StatRes where
  | found (path : String) (entry : FsEntry)
  | notExist
  | err
  deriving DecidableEq, Repr

/-- The target computation of `symlinkRepoTarget` (and of symlink-chain
resolution): absolute targets are cleaned, relative targets are joined to
the link's directory. -/
def absTarget (rawTarget dirOfLink : String) : String :=
  if isAbs rawTarget then pathClean rawTarget
  else pathClean (pathJoin dirOfLink rawTarget)

/-- The kernel's bound on nested symlink resolution. -/
def evalFuel : Nat := 40

/-- `os.Stat` on an absolute path: follow symlink chains (up to the fuel
bound), failing with `err` on paths outside the modelled trees or on too
deep a chain. -/
def statAbs (env : Env) (s : FsState) : Nat → String → StatRes
  | 0, _ => .err
  | fuel + 1, p =>
    match locate env p with
    | .repo r =>
      match lookupA r s.repo with
      | none => .notExist
      | some (.symlink t) => statAbs env s fuel (absTarget t (pathDir p))
      | some e => .found p e
    | .live r =>
      match lookupA r s.live with
      | none => .notExist
      | some (.symlink t) => statAbs env s fuel (absTarget t (pathDir p))
      | some e => .found p e
    | .outside => .err

/-- `os.ReadFile` on an absolute path (follows symlinks). -/
def readFileAbs (env : Env) (s : FsState) (p : String) : Option String :=
  match statAbs env s evalFuel p with
  | .found _ (.file c) => some c
  | _ => none

/-- Mirrors `symlinkPointsTo` for a link whose raw target is `rawTarget`:
`filepath.EvalSymlinks` resolves the chain (an unresolvable chain is an
error), and the resolved absolute cleaned path is compared with the
cleaned absolute target path. -/
def symlinkPointsTo (env : Env) (s : FsState) (linkPath rawTarget targetPath : String) :
    Except Unit Bool :=
  match statAbs env s evalFuel (absTarget rawTarget (pathDir linkPath)) with
  | .found resolved _ => .ok (resolved == pathClean targetPath)
  | _ => .error ()

/-! ### The doctor managed-path pass (`cmdDoctorWithRepo`, lines 403-467) -/

structure DoctorReport where
  didNotTouch : List String := []
  replacedWithSymlink : List String := []
  unlinkedOrphanSymlink : List String := []
  requireManualResolve : List String := []
  deriving DecidableEq, Repr

/-- The body of the managed-path loop of `cmdDoctorWithRepo`: classify one
managed relative path and apply its convergence action. -/
def doctorStep (env : Env) (acc : FsState × DoctorReport) (rel : String) :
    FsState × DoctorReport :=
  let s := acc.1
  let report := acc.2
  let repoFile := pathJoin env.repoPath rel
  let liveFile := pathJoin env.xdg rel
  match statAbs env s evalFuel repoFile with
  | .found _ (.file _) =>
    match lookupA rel s.live with
    | none =>
      ({ s with live := updateA rel (.symlink repoFile) s.live },
       { report with replacedWithSymlink := report.replacedWithSymlink ++ [rel] })
    | some (.symlink t) =>
      match symlinkPointsTo env s liveFile t repoFile with
      | .ok true => (s, { report with didNotTouch := report.didNotTouch ++ [rel] })
      | _ => (s, { report with requireManualResolve := report.requireManualResolve ++ [rel] })
    | some (.file _) =>
      match readFileAbs env s repoFile, readFileAbs env s liveFile with
      | some lc, some rc =>
        if lc == rc then
          ({ s with live := updateA rel (.symlink repoFile) s.live },
           { report with replacedWithSymlink := report.replacedWithSymlink ++ [rel] })
        else (s, { report with requireManualResolve := report.requireManualResolve ++ [rel] })
      | _, _ => (s, { report with requireManualResolve := report.requireManualResolve ++ [rel] })
    | some _ => (s, { report with requireManualResolve := report.requireManualResolve ++ [rel] })
  | _ => (s, { report with requireManualResolve := report.requireManualResolve ++ [rel] })

def doctorManagedPass (env : Env) (s : FsState) (managed : List String) :
    FsState × DoctorReport :=
  managed.foldl (doctorStep env) (s, {})

/-! ### The orphan-symlink pass (`reconcileOrphanRepoSymlinks`) -/

/-- The proper ancestor directories of a relative path (`a/b` for `a/b/c`). -/
def properAncestors (rel : String) : List String :=
  let comps := splitSep '/' rel.data
  (List.range (comps.length - 1)).map (fun i => ⟨joinSep '/' (comps.take (i + 1))⟩)

/-- `filepath.WalkDir` prunes an ignored directory with `SkipDir`: a leaf
is reached by the walk only when no proper ancestor directory is ignored. -/
def ancestorIgnored (rel : String) (matchers : List (List GlobTok)) : Bool :=
  (properAncestors rel).any (fun d => shouldIgnorePath d true matchers)

/-- The body of the walk callback of `reconcileOrphanRepoSymlinks` for one
visited leaf entry. -/
def orphanVisit (env : Env) (managed : List String) (matchers : List (List GlobTok))
    (acc : FsState × DoctorReport) (k : String) : FsState × DoctorReport :=
  let s := acc.1
  let report := acc.2
  let fullPath := pathJoin env.xdg k
  match lookupA k s.live with
  | none => acc
  | some .dir => acc
  | some e =>
    if shouldIgnorePath k false matchers then acc
    else
      match e with
      | .symlink rawT =>
        match normalizeManagedPath k with
        | .error _ => acc
        | .ok rel =>
          if managed.contains rel then acc
          else
            let target := absTarget rawT (pathDir fullPath)
            match pathWithin env.repoPath target with
            | .ok true =>
              match statAbs env s evalFuel target with
              | .notExist =>
                ({ s with live := eraseA k s.live },
                 { report with unlinkedOrphanSymlink :=
                     report.unlinkedOrphanSymlink ++ [rel ++ " (removed dangling symlink)"] })
              | .found _ (.file c) =>
                ({ s with live := updateA k (.file c) s.live },
                 { report with unlinkedOrphanSymlink := report.unlinkedOrphanSymlink ++ [rel] })
              | _ =>
                (s, { report with requireManualResolve := report.requireManualResolve ++ [rel] })
            | _ => acc
      | _ => acc

/-- Mirrors `reconcileOrphanRepoSymlinks`: walk the live tree (skipping
ignored subtrees), handle each orphan symlink, and sort the two outcome
buckets. -/
def reconcileOrphanRepoSymlinks (env : Env) (s : FsState) (managed : List String)
    (matchers : List (List GlobTok)) : FsState × DoctorReport :=
  let keys := (s.live.map Prod.fst).filter (fun k => !ancestorIgnored k matchers)
  let res := keys.foldl (orphanVisit env managed matchers) (s, {})
  (res.1,
   { res.2 with
     unlinkedOrphanSymlink := sortStrings res.2.unlinkedOrphanSymlink,
     requireManualResolve := sortStrings res.2.requireManualResolve })

/-! ### The doctor command (`cmdDoctorWithRepo`, `printDoctorReport`) -/

def reportSection (header : String) (items : List String) : List String :=
  [header] ++ (if items.isEmpty then ["  (none)"] else items.map (fun item => "  - " ++ item))

/-- Mirrors `printDoctorReport`: the lines written to the output stream. -/
def printDoctorReport (report : DoctorReport) : List String :=
  reportSection "did not touch:" report.didNotTouch ++
  reportSection "replaced with symlink:" report.replacedWithSymlink ++
  reportSection "unlinked orphan symlink:" report.unlinkedOrphanSymlink ++
  reportSection "require manual reconcile:" report.requireManualResolve

structure DoctorOutcome where
  state : FsState
  report : DoctorReport
  output : List String
  success : Bool
  deriving DecidableEq, Repr

/-- Mirrors `cmdDoctorWithRepo` given the loaded managed set and compiled
ignore matchers: empty managed set returns early with success; otherwise
the managed pass runs, then the orphan pass, the combined report is
printed, and the command fails iff `requireManualResolve` is non-empty. -/
def cmdDoctorWithRepo (env : Env) (s : FsState) (managed : List String)
    (matchers : List (List GlobTok)) : DoctorOutcome :=
  if managed.isEmpty then
    { state := s, report := {}, output := ["No tracked files found."], success := true }
  else
    let m := doctorManagedPass env s managed
    let o := reconcileOrphanRepoSymlinks env m.1 managed matchers
    let report : DoctorReport :=
      { m.2 with
        unlinkedOrphanSymlink := m.2.unlinkedOrphanSymlink ++ o.2.unlinkedOrphanSymlink,
        requireManualResolve := m.2.requireManualResolve ++ o.2.requireManualResolve }
    { state := o.1, report := report, output := printDoctorReport report,
      success := report.requireManualResolve.isEmpty }

/-! ### The track operation (`trackSelections`, lines 712-769)

The filesystem calls that can fail for environmental reasons (permissions,
crossing devices, …) are driven by an explicit failure oracle carrying the
error text Go would surface; `none` means the call succeeds.  The
compensating `moveFile(repoFile, liveFile)` calls discard their error
(`_ =` in the source): `rollbackFails` states whether that hidden call
fails, in which case the repository keeps the moved file and the live
entry stays gone. -/

structure OperationReport where
  changed : Bool := false
  succeeded : List String := []
  skipped : List String := []
  failed : List String := []
  deriving DecidableEq, Repr

structure TrackFailures where
  moveFails : Option String := none
  mkdirLiveFails : Option String := none
  symlinkFails : Option String := none
  rollbackFails : Bool := false
  deriving DecidableEq, Repr

/-- `os.MkdirAll(filepath.Dir(repoPath/rel))`: record the ancestor
directories of `rel` as existing. -/
def addRepoDirs (rel : String) (dirs : List String) : List String :=
  (properAncestors rel).foldl (fun ds d => if ds.contains d then ds else ds ++ [d]) dirs

/-- The compensating `_ = moveFile(repoFile, liveFile)` after a failure:
move the repository file back to the live location, silently doing nothing
further when that reversal itself fails. -/
def rollbackMove (fails : TrackFailures) (rel : String) (content : String) (s : FsState) :
    FsState :=
  if fails.rollbackFails then s
  else { s with repo := eraseA rel s.repo, live := updateA rel (.file content) s.live }

/-- The body of the selection loop of `trackSelections` for one raw
selected path. -/
def trackOne (env : Env) (fails : TrackFailures)
    (acc : FsState × OperationReport × List String) (raw : String) :
    FsState × OperationReport × List String :=
  let s := acc.1
  let report := acc.2.1
  let managedSet := acc.2.2
  match normalizeManagedPath raw with
  | .error _ =>
    (s, { report with failed := report.failed ++ [raw ++ ": invalid path"] }, managedSet)
  | .ok rel =>
    if managedSet.contains rel then
      (s, { report with skipped := report.skipped ++ [rel ++ ": already tracked"] }, managedSet)
    else
      let repoFile := pathJoin env.repoPath rel
      match lookupA rel s.live with
      | none =>
        (s, { report with failed := report.failed ++ [rel ++ ": source file missing"] },
         managedSet)
      | some (.file content) =>
        match statAbs env s evalFuel repoFile with
        | .found _ _ =>
          (s, { report with failed := report.failed ++ [rel ++ ": repo file already exists"] },
           managedSet)
        | .err =>
          (s, { report with failed := report.failed ++ [rel ++ ": repo file check failed"] },
           managedSet)
        | .notExist =>
          let s1 := { s with repoDirs := addRepoDirs rel s.repoDirs }
          match fails.moveFails with
          | some e =>
            (s1, { report with failed := report.failed ++ [rel ++ ": move file: " ++ e] },
             managedSet)
          | none =>
            let s2 := { s1 with live := eraseA rel s1.live,
                                repo := updateA rel (.file content) s1.repo }
            match fails.mkdirLiveFails with
            | some e =>
              (rollbackMove fails rel content s2,
               { report with failed :=
                   report.failed ++ [rel ++ ": restore after mkdir failure: " ++ e] },
               managedSet)
            | none =>
              match fails.symlinkFails with
              | some e =>
                (rollbackMove fails rel content s2,
                 { report with failed := report.failed ++ [rel ++ ": create symlink: " ++ e] },
                 managedSet)
              | none =>
                ({ s2 with live := updateA rel (.symlink repoFile) s2.live },
                 { report with changed := true, succeeded := report.succeeded ++ [rel] },
                 managedSet ++ [rel])
      | some _ =>
        (s, { report with skipped := report.skipped ++ [rel ++ ": source is not a regular file"] },
         managedSet)

/-- Mirrors `trackSelections` given the resolved live root. -/
def trackSelections (env : Env) (fails : TrackFailures) (s : FsState) (managed : List String)
    (selections : List String) : FsState × OperationReport × List String :=
  selections.foldl (trackOne env fails) (s, {}, managed)

/-! ### The untrack operation (`cmdRemove` loop, `ensureLiveCopyForRemove`,
`removeEmptyDirsUpward`) -/

/-- Mirrors `ensureLiveCopyForRemove` for the managed key `rel` (whose
live path is `xdg/rel`). -/
def ensureLiveCopyForRemove (env : Env) (s : FsState) (repoFile rel : String) :
    Except String FsState :=
  match lookupA rel s.live with
  | none =>
    match readFileAbs env s repoFile with
    | some c => .ok { s with live := updateA rel (.file c) s.live }
    | none => .error "copy repo file to live location failed"
  | some (.symlink t) =>
    match symlinkPointsTo env s (pathJoin env.xdg rel) t repoFile with
    | .error _ => .error "inspect symlink failed"
    | .ok false => .error "live symlink points elsewhere"
    | .ok true =>
      let s2 := { s with live := eraseA rel s.live }
      match readFileAbs env s2 repoFile with
      | some c => .ok { s2 with live := updateA rel (.file c) s2.live }
      | none => .error "copy repo file to live location failed"
  | some (.file _) => .ok s
  | some _ => .error "live path is not a regular file"

def removeStr (x : String) : List String → List String
  | [] => []
  | y :: t => if y = x then t else y :: removeStr x t

/-- The parent of a relative path (`.` for a top-level name). -/
def parentRel (d : String) : String :=
  let comps := splitSep '/' d.data
  if comps.length ≤ 1 then "." else ⟨joinSep '/' comps.dropLast⟩

/-- `k` lies strictly inside directory `d`. -/
def underDir (d k : String) : Bool :=
  strStartsWith k (d ++ "/")

/-- A repository directory is empty when it holds no file and no
subdirectory. -/
def repoDirEmpty (s : FsState) (d : String) : Bool :=
  !(s.repo.any (fun kv => underDir d kv.1)) && !(s.repoDirs.any (fun d2 => underDir d d2))

/-- Mirrors `removeEmptyDirsUpward(repoPath, dir)` at the relative level:
`.` plays the role of the repository root, a missing directory stops the
loop like the `os.ReadDir` error does, and a non-empty directory stops it. -/
def removeEmptyDirsUpward (s : FsState) : Nat → String → FsState
  | 0, _ => s
  | fuel + 1, d =>
    if d == "." || d == "" then s
    else if !(s.repoDirs.contains d) then s
    else if !(repoDirEmpty s d) then s
    else removeEmptyDirsUpward { s with repoDirs := removeStr d s.repoDirs } fuel (parentRel d)

/-- The body of the selection loop of `cmdRemove` for one raw selected
path: require the repository file, ensure an independent live copy, delete
the repository file and prune now-empty parent directories. -/
def removeOne (env : Env) (acc : FsState × OperationReport) (raw : String) :
    FsState × OperationReport :=
  let s := acc.1
  let report := acc.2
  match normalizeManagedPath raw with
  | .error _ => (s, { report with failed := report.failed ++ [raw ++ ": invalid path"] })
  | .ok rel =>
    let repoFile := pathJoin env.repoPath rel
    match statAbs env s evalFuel repoFile with
    | .found _ _ =>
      match ensureLiveCopyForRemove env s repoFile rel with
      | .error e => (s, { report with failed := report.failed ++ [rel ++ ": " ++ e] })
      | .ok s2 =>
        match lookupA rel s2.repo with
        | some .dir =>
          if repoDirEmpty s2 rel then
            let s3 := { s2 with repo := eraseA rel s2.repo }
            let s4 := removeEmptyDirsUpward s3 ((splitSep '/' rel.data).length + 1) (parentRel rel)
            (s4, { report with changed := true, succeeded := report.succeeded ++ [rel] })
          else
            (s2, { report with failed := report.failed ++ [rel ++ ": remove repo file failed"] })
        | _ =>
          let s3 := { s2 with repo := eraseA rel s2.repo }
          let s4 := removeEmptyDirsUpward s3 ((splitSep '/' rel.data).length + 1) (parentRel rel)
          (s4, { report with changed := true, succeeded := report.succeeded ++ [rel] })
    | _ => (s, { report with failed := report.failed ++ [rel ++ ": repo file missing"] })

/-- Mirrors the selection loop of `cmdRemove`. -/
def cmdRemoveSelections (env : Env) (s : FsState) (selected : List String) :
    FsState × OperationReport :=
  selected.foldl (removeOne env) (s, {})

/-! ### Well-formed paths

`renderAbs cs` is the cleaned absolute path with elements `cs`;
`renderRel cs` the cleaned relative path with elements `cs`.  A *good*
element is non-empty, not `.`, not `..` and separator-free; a *clean*
element may additionally be `..` (cleaned relative paths can keep leading
`..` elements). -/

def cleanComp (c : List Char) : Prop := c ≠ [] ∧ c ≠ ['.'] ∧ '/' ∉ c

def goodComp (c : List Char) : Prop := c ≠ [] ∧ c ≠ ['.'] ∧ c ≠ ddot ∧ '/' ∉ c

instance : DecidablePred cleanComp := fun c => by unfold cleanComp; infer_instance

instance : DecidablePred goodComp := fun c => by unfold goodComp; infer_instance

def renderAbs (cs : List (List Char)) : String := ⟨'/' :: joinSep '/' cs⟩

def renderRel (cs : List (List Char)) : String := ⟨joinSep '/' cs⟩

/-- A cleaned absolute path: `/` followed by good elements. -/
def absCleanStr (p : String) : Prop :=
  ∃ cs, (∀ c ∈ cs, goodComp c) ∧ p = renderAbs cs

/-- A cleaned, non-empty, traversal-free relative path. -/
def goodRelStr (r : String) : Prop :=
  ∃ cs, cs ≠ [] ∧ (∀ c ∈ cs, goodComp c) ∧ r = renderRel cs

/-- `DotNormal rooted l` says `..`-resolution has nothing left to do:
rooted paths contain no `..`, relative ones only a leading run of them. -/
def DotNormal (rooted : Bool) (l : List (List Char)) : Prop :=
  if rooted then ddot ∉ l
  else ∃ k rest, l = List.replicate k ddot ++ rest ∧ ddot ∉ rest

/-! ### Splitting and joining lemmas -/

theorem splitSep_nil (sep : Char) : splitSep sep [] = [[]] := rfl

theorem splitSep_cons_sep (sep : Char) (l : List Char) :
    splitSep sep (sep :: l) = [] :: splitSep sep l := by
  simp [splitSep]

theorem splitSep_ne_nil (sep : Char) (l : List Char) : splitSep sep l ≠ [] := by
  induction l with
  | nil => simp [splitSep]
  | cons c cs ih =>
    by_cases hc : c = sep
    · subst hc; rw [splitSep_cons_sep]; simp
    · simp only [splitSep, if_neg hc]
      cases hr : splitSep sep cs with
      | nil => simp
      | cons a t => simp

theorem splitSep_cons_ne {sep c : Char} (l : List Char) (h : c ≠ sep) {a : List Char}
    {t : List (List Char)} (hr : splitSep sep l = a :: t) :
    splitSep sep (c :: l) = (c :: a) :: t := by
  simp [splitSep, if_neg h, hr]

theorem splitSep_no_sep {sep : Char} {p : List Char} (h : sep ∉ p) :
    splitSep sep p = [p] := by
  induction p with
  | nil => rfl
  | cons c cs ih =>
    have hc : c ≠ sep := fun hcs => h (hcs ▸ List.mem_cons_self c cs)
    have hcs : sep ∉ cs := fun hm => h (List.mem_cons_of_mem c hm)
    exact splitSep_cons_ne cs hc (ih hcs)

theorem splitSep_append_sep {sep : Char} {p l : List Char} (h : sep ∉ p) :
    splitSep sep (p ++ sep :: l) = p :: splitSep sep l := by
  induction p with
  | nil => simpa using splitSep_cons_sep sep l
  | cons c cs ih =>
    have hc : c ≠ sep := fun hcs => h (hcs ▸ List.mem_cons_self c cs)
    have hcs : sep ∉ cs := fun hm => h (List.mem_cons_of_mem c hm)
    exact splitSep_cons_ne (cs ++ sep :: l) hc (ih hcs)

theorem splitSep_join_append {sep : Char} {ps : List (List Char)} {l : List Char}
    (h : ∀ p ∈ ps, sep ∉ p) (hne : ps ≠ []) :
    splitSep sep (joinSep sep ps ++ sep :: l) = ps ++ splitSep sep l := by
  induction ps with
  | nil => exact absurd rfl hne
  | cons p ps ih =>
    cases ps with
    | nil =>
      simpa [joinSep] using splitSep_append_sep (h p (List.mem_cons_self p []))
    | cons q qs =>
      have hp : sep ∉ p := h p (List.mem_cons_self p _)
      have h2 : ∀ r ∈ q :: qs, sep ∉ r := fun r hr => h r (List.mem_cons_of_mem p hr)
      have : joinSep sep (p :: q :: qs) = p ++ sep :: joinSep sep (q :: qs) := rfl
      rw [this, List.append_assoc, List.cons_append, splitSep_append_sep hp,
        ih h2 (by simp)]
      rfl

theorem splitSep_joinSep {sep : Char} {ps : List (List Char)}
    (h : ∀ p ∈ ps, sep ∉ p) (hne : ps ≠ []) :
    splitSep sep (joinSep sep ps) = ps := by
  induction ps with
  | nil => exact absurd rfl hne
  | cons p ps ih =>
    cases ps with
    | nil => simpa [joinSep] using splitSep_no_sep (h p (List.mem_cons_self p []))
    | cons q qs =>
      have hp : sep ∉ p := h p (List.mem_cons_self p _)
      have h2 : ∀ r ∈ q :: qs, sep ∉ r := fun r hr => h r (List.mem_cons_of_mem p hr)
      have : joinSep sep (p :: q :: qs) = p ++ sep :: joinSep sep (q :: qs) := rfl
      rw [this, splitSep_append_sep hp, ih h2 (by simp)]

theorem mem_splitSep {sep : Char} {l : List Char} {p : List Char}
    (hp : p ∈ splitSep sep l) : sep ∉ p := by
  induction l generalizing p with
  | nil =>
    simp only [splitSep_nil, List.mem_singleton] at hp
    subst hp; simp
  | cons c cs ih =>
    by_cases hc : c = sep
    · subst hc
      rw [splitSep_cons_sep] at hp
      rcases List.mem_cons.mp hp with h1 | h2
      · subst h1; simp
      · exact ih h2
    · cases hr : splitSep sep cs with
      | nil => exact absurd hr (splitSep_ne_nil sep cs)
      | cons a t =>
        rw [splitSep_cons_ne cs hc hr] at hp
        rcases List.mem_cons.mp hp with h1 | h2
        · subst h1
          intro hm
          rcases List.mem_cons.mp hm with h3 | h4
          · exact hc h3.symm
          · exact ih (hr ▸ List.mem_cons_self a t) h4
        · exact ih (hr ▸ List.mem_cons_of_mem a h2)

theorem joinSep_cons_of_ne_nil {sep : Char} {p : List Char} {ps : List (List Char)}
    (h : ps ≠ []) : joinSep sep (p :: ps) = p ++ sep :: joinSep sep ps := by
  cases ps with
  | nil => exact absurd rfl h
  | cons q qs => rfl

theorem joinSep_splitSep {sep : Char} (l : List Char) :
    joinSep sep (splitSep sep l) = l := by
  induction l with
  | nil => rfl
  | cons c cs ih =>
    by_cases hc : c = sep
    · rw [hc, splitSep_cons_sep,
        joinSep_cons_of_ne_nil (splitSep_ne_nil sep cs), ih]
      rfl
    · cases hr : splitSep sep cs with
      | nil => exact absurd hr (splitSep_ne_nil sep cs)
      | cons a t =>
        rw [splitSep_cons_ne cs hc hr]
        cases t with
        | nil =>
          have : joinSep sep [a] = a := rfl
          rw [hr] at ih
          simp only [joinSep, this] at ih ⊢
          rw [ih]
        | cons b bs =>
          have h1 : joinSep sep ((c :: a) :: b :: bs) = (c :: a) ++ sep :: joinSep sep (b :: bs) := rfl
          have h2 : joinSep sep (a :: b :: bs) = a ++ sep :: joinSep sep (b :: bs) := rfl
          rw [hr, h2] at ih
          rw [h1, List.cons_append, ih]

/-! ### `..`-resolution lemmas -/

theorem dotsStep_ne_ddot {rooted : Bool} (acc : List (List Char)) {c : List Char}
    (h : c ≠ ddot) : dotsStep rooted acc c = acc ++ [c] := by
  simp [dotsStep, h]

theorem foldl_dotsStep_no_ddot {rooted : Bool} {cs : List (List Char)}
    (h : ∀ c ∈ cs, c ≠ ddot) (acc : List (List Char)) :
    cs.foldl (dotsStep rooted) acc = acc ++ cs := by
  induction cs generalizing acc with
  | nil => simp
  | cons c cs ih =>
    rw [List.foldl_cons, dotsStep_ne_ddot acc (h c (List.mem_cons_self c cs)),
      ih (fun d hd => h d (List.mem_cons_of_mem c hd))]
    simp

theorem resolveDots_no_ddot {rooted : Bool} {cs : List (List Char)}
    (h : ∀ c ∈ cs, c ≠ ddot) : resolveDots rooted cs = cs := by
  simpa using foldl_dotsStep_no_ddot h []

theorem mem_dotsStep {rooted : Bool} {acc : List (List Char)} {c x : List Char}
    (hx : x ∈ dotsStep rooted acc c) : x ∈ acc ∨ x = c := by
  by_cases hc : c = ddot
  · by_cases ha : acc = []
    · cases rooted with
      | true =>
        simp only [dotsStep, if_pos hc, if_pos ha, if_pos rfl] at hx
        exact Or.inl hx
      | false =>
        simp only [dotsStep, if_pos hc, if_pos ha] at hx
        simp only [Bool.false_eq_true, if_false, List.mem_singleton] at hx
        exact Or.inr hx
    · by_cases hld : acc.getLast? = some ddot
      · simp only [dotsStep, if_pos hc, if_neg ha, if_pos hld] at hx
        rcases List.mem_append.mp hx with h4 | h5
        · exact Or.inl h4
        · exact Or.inr (by simpa using h5)
      · simp only [dotsStep, if_pos hc, if_neg ha, if_neg hld] at hx
        exact Or.inl ((List.dropLast_sublist acc).subset hx)
  · rw [dotsStep_ne_ddot acc hc] at hx
    rcases List.mem_append.mp hx with h4 | h5
    · exact Or.inl h4
    · exact Or.inr (by simpa using h5)

theorem mem_foldl_dotsStep {rooted : Bool} {cs : List (List Char)} {acc : List (List Char)}
    {x : List Char} (hx : x ∈ cs.foldl (dotsStep rooted) acc) :
    x ∈ acc ∨ x ∈ cs ∨ x = ddot := by
  induction cs generalizing acc with
  | nil => simp at hx; exact Or.inl hx
  | cons c cs ih =>
    rw [List.foldl_cons] at hx
    rcases ih hx with h1 | h2 | h3
    · rcases mem_dotsStep h1 with h4 | h5
      · exact Or.inl h4
      · by_cases hc : c = ddot
        · exact Or.inr (Or.inr (h5.trans hc))
        · exact Or.inr (Or.inl (h5 ▸ List.mem_cons_self c cs))
    · exact Or.inr (Or.inl (List.mem_cons_of_mem c h2))
    · exact Or.inr (Or.inr h3)

theorem mem_resolveDots {rooted : Bool} {cs : List (List Char)} {x : List Char}
    (hx : x ∈ resolveDots rooted cs) : x ∈ cs ∨ x = ddot := by
  rcases mem_foldl_dotsStep hx with h | h | h
  · simp at h
  · exact Or.inl h
  · exact Or.inr h

theorem dotNormal_nil (rooted : Bool) : DotNormal rooted [] := by
  cases rooted with
  | false => exact ⟨0, [], by simp, by simp⟩
  | true => simp [DotNormal]

theorem dotsStep_normal {rooted : Bool} {acc : List (List Char)}
    (h : DotNormal rooted acc) (c : List Char) : DotNormal rooted (dotsStep rooted acc c) := by
  by_cases hc : c = ddot
  · subst hc
    cases rooted with
    | true =>
      simp only [DotNormal, reduceIte] at h ⊢
      by_cases ha : acc = []
      · simp only [dotsStep, if_pos rfl, if_pos ha, if_pos rfl]
        exact h
      · have hld : acc.getLast? ≠ some ddot := by
          intro he
          obtain ⟨hne, heq⟩ := List.mem_getLast?_eq_getLast (by simp [he] : ddot ∈ acc.getLast?)
          exact h (heq ▸ List.getLast_mem hne)
        simp only [dotsStep, if_pos rfl, if_neg ha, if_neg hld]
        exact fun hm => h ((List.dropLast_sublist acc).subset hm)
    | false =>
      simp only [DotNormal, Bool.false_eq_true, reduceIte] at h ⊢
      obtain ⟨k, rest, hacc, hrest⟩ := h
      cases hr : rest with
      | nil =>
        subst hr
        simp only [List.append_nil] at hacc
        subst hacc
        cases k with
        | zero =>
          simp only [dotsStep, if_pos rfl, List.replicate, reduceIte]
          exact ⟨1, [], by simp [List.replicate], by simp⟩
        | succ n =>
          have ha : List.replicate (n + 1) ddot ≠ [] := by simp
          have hl : (List.replicate (n + 1) ddot).getLast? = some ddot := by
            simp [List.getLast?_replicate]
          simp only [dotsStep, if_pos rfl, if_neg ha, hl, reduceIte]
          refine ⟨n + 2, [], ?_, by simp⟩
          rw [List.append_nil, List.replicate_succ' (n + 1)]
      | cons r rs =>
        subst hr
        subst hacc
        have hne : (r :: rs) ≠ [] := by simp
        have ha : List.replicate k ddot ++ r :: rs ≠ [] := by simp
        have hl : (List.replicate k ddot ++ r :: rs).getLast? = some ((r :: rs).getLast hne) := by
          rw [List.getLast?_append_of_ne_nil _ hne]
          exact List.getLast?_eq_getLast_of_ne_nil hne
        have hld : (List.replicate k ddot ++ r :: rs).getLast? ≠ some ddot := by
          rw [hl]
          intro he
          have : (r :: rs).getLast hne = ddot := by simpa using he
          exact hrest (this ▸ List.getLast_mem hne)
        simp only [dotsStep, if_pos rfl, if_neg ha, if_neg hld]
        refine ⟨k, (r :: rs).dropLast, ?_,
          fun hm => hrest ((List.dropLast_sublist _).subset hm)⟩
        rw [List.dropLast_append_of_ne_nil _ hne]
        simp
  · rw [dotsStep_ne_ddot acc hc]
    cases rooted with
    | true =>
      simp only [DotNormal, reduceIte] at h ⊢
      intro hm
      rcases List.mem_append.mp hm with h1 | h2
      · exact h h1
      · have h3 : ddot = c := by simpa using h2
        exact hc h3.symm
    | false =>
      simp only [DotNormal, Bool.false_eq_true, reduceIte] at h ⊢
      obtain ⟨k, rest, hacc, hrest⟩ := h
      refine ⟨k, rest ++ [c], by rw [hacc, List.append_assoc], ?_⟩
      intro hm
      rcases List.mem_append.mp hm with h1 | h2
      · exact hrest h1
      · have h3 : ddot = c := by simpa using h2
        exact hc h3.symm

theorem foldl_dotsStep_normal {rooted : Bool} (cs : List (List Char))
    {acc : List (List Char)} (h : DotNormal rooted acc) :
    DotNormal rooted (cs.foldl (dotsStep rooted) acc) := by
  induction cs generalizing acc with
  | nil => simpa using h
  | cons c cs ih => exact ih (dotsStep_normal h c)

theorem resolveDots_normal (rooted : Bool) (cs : List (List Char)) :
    DotNormal rooted (resolveDots rooted cs) :=
  foldl_dotsStep_normal cs (dotNormal_nil rooted)

theorem foldl_dotsStep_replicate_ddot (k j : Nat) :
    (List.replicate k ddot).foldl (dotsStep false) (List.replicate j ddot) =
      List.replicate (j + k) ddot := by
  induction k generalizing j with
  | zero => simp
  | succ n ih =>
    rw [List.replicate_succ, List.foldl_cons]
    have hstep : dotsStep false (List.replicate j ddot) ddot = List.replicate (j + 1) ddot := by
      cases j with
      | zero => simp [dotsStep, List.replicate]
      | succ m =>
        have ha : List.replicate (m + 1) ddot ≠ [] := by simp
        have hl : (List.replicate (m + 1) ddot).getLast? = some ddot := by
          simp [List.getLast?_replicate]
        simp only [dotsStep, if_pos rfl, if_neg ha, hl, reduceIte]
        rw [List.replicate_succ' (m + 1)]
    rw [hstep, ih (j + 1)]
    congr 1
    omega

theorem resolveDots_of_normal {rooted : Bool} {l : List (List Char)}
    (h : DotNormal rooted l) : resolveDots rooted l = l := by
  cases rooted with
  | true =>
    simp only [DotNormal, reduceIte] at h
    exact resolveDots_no_ddot (fun c hc he => h (he ▸ hc))
  | false =>
    simp only [DotNormal, Bool.false_eq_true, reduceIte] at h
    obtain ⟨k, rest, hl, hrest⟩ := h
    subst hl
    unfold resolveDots
    rw [List.foldl_append]
    have h1 := foldl_dotsStep_replicate_ddot k 0
    simp only [List.replicate, Nat.zero_add] at h1
    rw [h1, foldl_dotsStep_no_ddot (fun c hc he => hrest (he ▸ hc))]

/-! ### `path.Clean` characterization -/

theorem cleanComp_ddot : cleanComp ddot := by
  refine ⟨by decide, by decide, by decide⟩

theorem cleanComp_of_mem_parts {l c : List Char}
    (hc : c ∈ (splitSep '/' l).filter (fun p => !(p == [] || p == ['.']))) : cleanComp c := by
  have h1 := List.of_mem_filter hc
  have h2 := List.mem_of_mem_filter hc
  have h3 := mem_splitSep h2
  simp only [Bool.not_eq_true', Bool.or_eq_false_iff, beq_eq_false_iff_ne, ne_eq] at h1
  exact ⟨h1.1, h1.2, h3⟩

theorem cleanComp_of_mem_resolve {rooted : Bool} {l c : List Char}
    (hc : c ∈ resolveDots rooted ((splitSep '/' l).filter (fun p => !(p == [] || p == ['.'])))) :
    cleanComp c := by
  rcases mem_resolveDots hc with h | h
  · exact cleanComp_of_mem_parts h
  · exact h ▸ cleanComp_ddot

theorem joinSep_head_ne_slash {res : List (List Char)}
    (hres : ∀ c ∈ res, cleanComp c) (hne : res ≠ []) :
    ((joinSep '/' res).head? == some '/') = false := by
  cases res with
  | nil => exact absurd rfl hne
  | cons c0 rest =>
    obtain ⟨h0, _, h2⟩ := hres c0 (List.mem_cons_self c0 rest)
    cases hc0 : c0 with
    | nil => exact absurd hc0 h0
    | cons x xs =>
      have hx : x ≠ '/' := by
        intro he
        exact h2 (hc0 ▸ he ▸ List.mem_cons_self x xs)
      cases rest with
      | nil =>
        simp only [joinSep, hc0, List.head?_cons, beq_eq_false_iff_ne, ne_eq,
          Option.some.injEq]
        exact hx
      | cons d ds =>
        rw [joinSep_cons_of_ne_nil (by simp)]
        simp only [List.cons_append, List.head?_cons, beq_eq_false_iff_ne, ne_eq,
          Option.some.injEq]
        exact hx

theorem sep_not_mem_of_cleanComp {res : List (List Char)}
    (hres : ∀ c ∈ res, cleanComp c) : ∀ c ∈ res, '/' ∉ c :=
  fun c hc => (hres c hc).2.2

theorem pathCleanCore_render (rooted : Bool) {res : List (List Char)}
    (hres : ∀ c ∈ res, cleanComp c) (hnorm : DotNormal rooted res) (hne : res ≠ []) :
    pathCleanCore rooted (if rooted then '/' :: joinSep '/' res else joinSep '/' res) =
      (if rooted then '/' :: joinSep '/' res else joinSep '/' res) := by
  have hfilter :
      (splitSep '/' (if rooted then '/' :: joinSep '/' res else joinSep '/' res)).filter
        (fun p => !(p == [] || p == ['.'])) = res := by
    cases rooted with
    | true =>
      rw [if_pos rfl, splitSep_cons_sep, splitSep_joinSep (sep_not_mem_of_cleanComp hres) hne]
      rw [List.filter_cons]
      simp only [show (!(([] : List Char) == [] || ([] : List Char) == ['.'])) = false by decide,
        Bool.false_eq_true, reduceIte]
      refine List.filter_eq_self.mpr ?_
      intro a ha
      obtain ⟨h1, h2, _⟩ := hres a ha
      simp [h1, h2]
    | false =>
      rw [if_neg (by simp), splitSep_joinSep (sep_not_mem_of_cleanComp hres) hne]
      refine List.filter_eq_self.mpr ?_
      intro a ha
      obtain ⟨h1, h2, _⟩ := hres a ha
      simp [h1, h2]
  simp only [pathCleanCore]
  rw [hfilter, resolveDots_of_normal hnorm, if_neg hne]

theorem pathCleanL_render (rooted : Bool) {res : List (List Char)}
    (hres : ∀ c ∈ res, cleanComp c) (hnorm : DotNormal rooted res) (hne : res ≠ []) :
    pathCleanL (if rooted then '/' :: joinSep '/' res else joinSep '/' res) =
      (if rooted then '/' :: joinSep '/' res else joinSep '/' res) := by
  have hhead : ((if rooted then '/' :: joinSep '/' res else joinSep '/' res).head? ==
      some '/') = rooted := by
    cases rooted with
    | true => simp
    | false =>
      rw [if_neg (by simp)]
      exact joinSep_head_ne_slash hres hne
  unfold pathCleanL
  rw [hhead]
  exact pathCleanCore_render rooted hres hnorm hne

theorem pathCleanL_idem (l : List Char) : pathCleanL (pathCleanL l) = pathCleanL l := by
  have hcore : pathCleanL l = pathCleanCore (l.head? == some '/') l := rfl
  set rb := (l.head? == some '/') with hrb
  have hshape : pathCleanCore rb l =
      (if resolveDots rb ((splitSep '/' l).filter (fun p => !(p == [] || p == ['.']))) = []
       then (if rb then ['/'] else ['.'])
       else (if rb
             then '/' :: joinSep '/'
               (resolveDots rb ((splitSep '/' l).filter (fun p => !(p == [] || p == ['.']))))
             else joinSep '/'
               (resolveDots rb ((splitSep '/' l).filter (fun p => !(p == [] || p == ['.'])))))) :=
    rfl
  by_cases hne :
      resolveDots rb ((splitSep '/' l).filter (fun p => !(p == [] || p == ['.']))) = []
  · rw [hcore, hshape, if_pos hne]
    cases rb with
    | true => decide
    | false => decide
  · rw [hcore, hshape, if_neg hne]
    exact pathCleanL_render rb (fun c hc => cleanComp_of_mem_resolve hc)
      (resolveDots_normal rb _) hne

theorem pathClean_idem (s : String) : pathClean (pathClean s) = pathClean s := by
  unfold pathClean
  exact congrArg String.mk (pathCleanL_idem s.data)

/-! ### Rendered well-formed paths and the path operations -/

theorem cleanComp_of_goodComp {c : List Char} (h : goodComp c) : cleanComp c :=
  ⟨h.1, h.2.1, h.2.2.2⟩

theorem dotNormal_of_good {rooted : Bool} {cs : List (List Char)}
    (h : ∀ c ∈ cs, goodComp c) : DotNormal rooted cs := by
  cases rooted with
  | true =>
    simp only [DotNormal, reduceIte]
    exact fun hm => (h ddot hm).2.2.1 rfl
  | false =>
    exact ⟨0, cs, by simp, fun hm => (h ddot hm).2.2.1 rfl⟩

theorem mk_data (l : List Char) : (String.mk l).data = l := rfl

theorem pathClean_mk (l : List Char) : pathClean (String.mk l) = String.mk (pathCleanL l) := rfl

theorem joinSep_ne_nil_of_good {ds : List (List Char)} (h : ∀ c ∈ ds, goodComp c)
    (hne : ds ≠ []) : joinSep '/' ds ≠ [] := by
  cases ds with
  | nil => exact absurd rfl hne
  | cons d rest =>
    have hd : d ≠ [] := (h d (List.mem_cons_self d rest)).1
    cases rest with
    | nil => exact hd
    | cons e es =>
      rw [joinSep_cons_of_ne_nil (by simp)]
      cases hd2 : d with
      | nil => exact absurd hd2 hd
      | cons x xs => simp

theorem pathClean_renderAbs {cs : List (List Char)} (h : ∀ c ∈ cs, goodComp c) :
    pathClean (renderAbs cs) = renderAbs cs := by
  cases hcs : cs with
  | nil => decide
  | cons c rest =>
    unfold renderAbs
    rw [pathClean_mk]
    have hres : ∀ d ∈ cs, cleanComp d := fun d hd => cleanComp_of_goodComp (h d hd)
    have h2 := @pathCleanL_render true cs hres (dotNormal_of_good h) (by simp [hcs])
    simp only [reduceIte] at h2
    rw [hcs] at h2
    exact congrArg String.mk h2

theorem pathClean_renderRel {cs : List (List Char)} (h : ∀ c ∈ cs, goodComp c)
    (hne : cs ≠ []) : pathClean (renderRel cs) = renderRel cs := by
  unfold renderRel
  rw [pathClean_mk]
  have hres : ∀ d ∈ cs, cleanComp d := fun d hd => cleanComp_of_goodComp (h d hd)
  have := @pathCleanL_render false cs hres (dotNormal_of_good h) hne
  simp only [Bool.false_eq_true, reduceIte] at this
  rw [this]

theorem pathComponents_renderAbs {cs : List (List Char)} (h : ∀ c ∈ cs, goodComp c) :
    pathComponents (renderAbs cs) = cs := by
  unfold pathComponents renderAbs
  rw [mk_data]
  cases hcs : cs with
  | nil => decide
  | cons c rest =>
    rw [← hcs, splitSep_cons_sep,
      splitSep_joinSep (fun p hp => (h p hp).2.2.2) (by simp [hcs])]
    rw [List.filter_cons]
    simp only [show (!(([] : List Char) == [])) = false by decide, Bool.false_eq_true, reduceIte]
    refine List.filter_eq_self.mpr ?_
    intro a ha
    have := (h a ha).1
    simpa using this

theorem pathComponents_renderRel {cs : List (List Char)} (h : ∀ c ∈ cs, goodComp c) :
    pathComponents (renderRel cs) = cs := by
  unfold pathComponents renderRel
  rw [mk_data]
  cases hcs : cs with
  | nil => decide
  | cons c rest =>
    rw [← hcs, splitSep_joinSep (fun p hp => (h p hp).2.2.2) (by simp [hcs])]
    refine List.filter_eq_self.mpr ?_
    intro a ha
    have := (h a ha).1
    simpa using this

theorem renderAbs_inj {cs ds : List (List Char)} (hcs : ∀ c ∈ cs, goodComp c)
    (hds : ∀ c ∈ ds, goodComp c) (h : renderAbs cs = renderAbs ds) : cs = ds := by
  have h1 := pathComponents_renderAbs hcs
  have h2 := pathComponents_renderAbs hds
  rw [← h1, ← h2, h]

theorem renderRel_ne_empty {ds : List (List Char)} (h : ∀ c ∈ ds, goodComp c)
    (hne : ds ≠ []) : renderRel ds ≠ "" := by
  intro he
  have : (renderRel ds).data = [] := by rw [he]
  rw [renderRel, mk_data] at this
  exact joinSep_ne_nil_of_good h hne this

theorem pathJoin_render {cs ds : List (List Char)} (hcs : ∀ c ∈ cs, goodComp c)
    (hds : ∀ c ∈ ds, goodComp c) (hne : ds ≠ []) :
    pathJoin (renderAbs cs) (renderRel ds) = renderAbs (cs ++ ds) := by
  have hane : renderAbs cs ≠ "" := by
    intro he
    have h0 : (renderAbs cs).data = [] := by rw [he]
    rw [renderAbs, mk_data] at h0
    simp at h0
  have hbne : renderRel ds ≠ "" := renderRel_ne_empty hds hne
  have hgood : ∀ c ∈ cs ++ ds, goodComp c := by
    intro c hc
    rcases List.mem_append.mp hc with h1 | h2
    · exact hcs c h1
    · exact hds c h2
  have hdata : (renderAbs cs).data ++ '/' :: (renderRel ds).data =
      '/' :: (joinSep '/' cs ++ '/' :: joinSep '/' ds) := by
    rw [renderAbs, renderRel, mk_data, mk_data]
    rfl
  have hsplit2 : splitSep '/' (joinSep '/' ds) = ds :=
    splitSep_joinSep (fun p hp => (hds p hp).2.2.2) hne
  have hfilter0 : ∀ l : List (List Char), (∀ c ∈ l, goodComp c) →
      l.filter (fun p => !(p == [] || p == ['.'])) = l := by
    intro l hl
    refine List.filter_eq_self.mpr ?_
    intro a ha
    obtain ⟨h1, h2, _, _⟩ := hl a ha
    simp [h1, h2]
  have hfe : (!(([] : List Char) == [] || ([] : List Char) == ['.'])) = false := by decide
  unfold pathJoin
  rw [if_neg (by simpa using hane), if_neg (by simpa using hbne), hdata, pathClean_mk]
  unfold pathCleanL pathCleanCore
  simp only [List.head?_cons, beq_self_eq_true, reduceIte]
  cases hcs2 : cs with
  | nil =>
    have hj : joinSep '/' ([] : List (List Char)) = [] := rfl
    rw [hj, List.nil_append, splitSep_cons_sep, splitSep_cons_sep, hsplit2]
    rw [List.filter_cons, hfe, List.filter_cons, hfe]
    simp only [Bool.false_eq_true, reduceIte]
    rw [hfilter0 ds hds, resolveDots_no_ddot (fun c hc => (hds c hc).2.2.1), if_neg hne]
    rfl
  | cons c rest =>
    rw [← hcs2, splitSep_cons_sep,
      splitSep_join_append (fun p hp => (hcs p hp).2.2.2) (by simp [hcs2]), hsplit2]
    rw [List.filter_cons, hfe]
    simp only [Bool.false_eq_true, reduceIte]
    rw [hfilter0 (cs ++ ds) hgood,
      resolveDots_no_ddot (fun c hc => (hgood c hc).2.2.1),
      if_neg (by simp [hne])]
    rfl

/-! ### `filepath.Rel` and `pathWithin` on rendered paths -/

theorem commonPrefixLen_append (cs ds : List (List Char)) :
    commonPrefixLen cs (cs ++ ds) = cs.length := by
  induction cs with
  | nil => cases ds <;> rfl
  | cons c rest ih =>
    simp [commonPrefixLen, ih]

theorem commonPrefixLen_le_left (cs es : List (List Char)) :
    commonPrefixLen cs es ≤ cs.length := by
  induction cs generalizing es with
  | nil => cases es <;> exact Nat.le.refl
  | cons c rest ih =>
    cases es with
    | nil => simp [commonPrefixLen]
    | cons e es2 =>
      by_cases hc : c = e
      · simp only [commonPrefixLen, if_pos hc, List.length_cons]
        exact Nat.succ_le_succ (ih es2)
      · simp [commonPrefixLen, hc]

theorem prefix_of_commonPrefixLen_eq_length {cs es : List (List Char)}
    (h : commonPrefixLen cs es = cs.length) : cs <+: es := by
  induction cs generalizing es with
  | nil => exact List.nil_prefix
  | cons c rest ih =>
    cases es with
    | nil => simp [commonPrefixLen] at h
    | cons e es2 =>
      by_cases hc : c = e
      · subst hc
        simp only [commonPrefixLen, reduceIte, List.length_cons, Nat.succ_inj] at h
        have h2 : commonPrefixLen rest es2 = rest.length := by omega
        exact List.cons_prefix_cons.mpr ⟨rfl, ih h2⟩
      · simp [commonPrefixLen, hc] at h

theorem isAbs_renderAbs (cs : List (List Char)) : isAbs (renderAbs cs) = true := by
  unfold isAbs strStartsWith renderAbs
  rw [mk_data]
  simp [List.isPrefixOf]

theorem renderAbs_beq_dot (cs : List (List Char)) : (renderAbs cs == ".") = false := by
  unfold renderAbs
  simp only [beq_eq_false_iff_ne, ne_eq]
  intro he
  have : ('/' : Char) :: joinSep '/' cs = ['.'] := congrArg String.data he
  simp at this

/-- The three traversal checks of `pathWithin` are all false on a rendered
good relative path. -/
theorem renderRel_not_traversal {ds : List (List Char)} (hds : ∀ c ∈ ds, goodComp c)
    (hne : ds ≠ []) :
    (renderRel ds == ".") = false ∧ (renderRel ds == "..") = false ∧
      strStartsWith (renderRel ds) "../" = false := by
  have hsplit : splitSep '/' (joinSep '/' ds) = ds :=
    splitSep_joinSep (fun p hp => (hds p hp).2.2.2) hne
  refine ⟨?_, ?_, ?_⟩
  · simp only [beq_eq_false_iff_ne, ne_eq]
    intro he
    have hd : joinSep '/' ds = ['.'] := congrArg String.data he
    rw [hd] at hsplit
    have : ds = [['.']] := by
      rw [← hsplit]; decide
    rw [this] at hds
    exact (hds ['.'] (by simp)).2.1 rfl
  · simp only [beq_eq_false_iff_ne, ne_eq]
    intro he
    have hd : joinSep '/' ds = ['.', '.'] := congrArg String.data he
    rw [hd] at hsplit
    have : ds = [['.', '.']] := by
      rw [← hsplit]; decide
    rw [this] at hds
    exact (hds ['.', '.'] (by simp)).2.2.1 rfl
  · unfold strStartsWith renderRel
    rw [mk_data]
    simp only [Bool.eq_false_iff, ne_eq]
    intro hp
    have hp2 : ("../".data) <+: joinSep '/' ds := List.isPrefixOf_iff_prefix.mp hp
    obtain ⟨t, ht⟩ := hp2
    have hd : joinSep '/' ds = ddot ++ '/' :: t := by
      rw [← ht]; rfl
    rw [hd, splitSep_append_sep (by decide)] at hsplit
    have : ddot ∈ ds := by
      rw [← hsplit]; exact List.mem_cons_self _ _
    exact (hds ddot this).2.2.1 rfl

theorem pathRel_render_under {cs ds : List (List Char)} (hcs : ∀ c ∈ cs, goodComp c)
    (hds : ∀ c ∈ ds, goodComp c) :
    pathRel (renderAbs cs) (renderAbs (cs ++ ds)) =
      .ok (if ds = [] then "." else renderRel ds) := by
  have hgood : ∀ c ∈ cs ++ ds, goodComp c := by
    intro c hc
    rcases List.mem_append.mp hc with h1 | h2
    · exact hcs c h1
    · exact hds c h2
  unfold pathRel
  rw [pathClean_renderAbs hcs, pathClean_renderAbs hgood]
  by_cases hne : ds = []
  · subst hne
    simp
  · have hne2 : (renderAbs cs == renderAbs (cs ++ ds)) = false := by
      simp only [beq_eq_false_iff_ne, ne_eq]
      intro he
      have h0 := renderAbs_inj hcs hgood he
      have h1 := congrArg List.length h0
      simp only [List.length_append] at h1
      exact hne (List.length_eq_zero.mp (by omega))
    simp only [hne2, Bool.false_eq_true, reduceIte, renderAbs_beq_dot,
      isAbs_renderAbs, bne_self_eq_false]
    rw [pathComponents_renderAbs hcs, pathComponents_renderAbs hgood,
      commonPrefixLen_append, List.drop_length, List.drop_left]
    simp only [List.head?_nil, List.map_nil, List.nil_append, reduceIte]
    rw [if_neg hne]
    rfl

theorem pathWithin_render_under {cs ds : List (List Char)} (hcs : ∀ c ∈ cs, goodComp c)
    (hds : ∀ c ∈ ds, goodComp c) :
    pathWithin (renderAbs cs) (renderAbs (cs ++ ds)) = .ok true := by
  have hgood : ∀ c ∈ cs ++ ds, goodComp c := by
    intro c hc
    rcases List.mem_append.mp hc with h1 | h2
    · exact hcs c h1
    · exact hds c h2
  unfold pathWithin
  rw [pathClean_renderAbs hcs, pathClean_renderAbs hgood, pathRel_render_under hcs hds]
  by_cases hne : ds = []
  · simp [hne]
  · rw [if_neg hne]
    obtain ⟨h1, h2, h3⟩ := renderRel_not_traversal hds hne
    simp [h1, h2, h3]

theorem pathWithin_render_outside {cs es : List (List Char)} (hcs : ∀ c ∈ cs, goodComp c)
    (hes : ∀ c ∈ es, goodComp c) (hnp : ¬ cs <+: es) :
    pathWithin (renderAbs cs) (renderAbs es) = .ok false := by
  have hneq : (renderAbs cs == renderAbs es) = false := by
    simp only [beq_eq_false_iff_ne, ne_eq]
    intro he
    exact hnp ((renderAbs_inj hcs hes he) ▸ List.prefix_refl es)
  have hk : commonPrefixLen cs es < cs.length := by
    rcases Nat.lt_or_ge (commonPrefixLen cs es) cs.length with h | h
    · exact h
    · exact absurd (prefix_of_commonPrefixLen_eq_length
        (Nat.le_antisymm (commonPrefixLen_le_left cs es) h)) hnp
  have hbrest : cs.drop (commonPrefixLen cs es) ≠ [] := by
    rw [ne_eq, List.drop_eq_nil_iff]
    omega
  unfold pathWithin pathRel
  rw [pathClean_renderAbs hcs, pathClean_renderAbs hes, pathClean_renderAbs hcs,
    pathClean_renderAbs hes]
  simp only [hneq, Bool.false_eq_true, reduceIte, renderAbs_beq_dot,
    isAbs_renderAbs, bne_self_eq_false]
  rw [pathComponents_renderAbs hcs, pathComponents_renderAbs hes]
  cases hd : cs.drop (commonPrefixLen cs es) with
  | nil => exact absurd hd hbrest
  | cons c0 crest =>
    have hc0 : c0 ∈ cs := List.drop_subset _ cs (hd ▸ List.mem_cons_self c0 crest)
    have hc0g := hcs c0 hc0
    simp only [List.head?_cons, Option.some.injEq, List.map_cons]
    rw [if_neg (fun he => hc0g.2.2.1 he)]
    cases hrest : List.replicate crest.length ddot ++ es.drop (commonPrefixLen cs es) with
    | nil =>
      have hdd : (String.mk (joinSep '/' ([ddot] : List (List Char))) == "..") = true := by
        decide
      have hd1 : (String.mk (joinSep '/' ([ddot] : List (List Char))) == ".") = false := by
        decide
      simp [hrest, hd1, hdd]
    | cons y ys =>
      have hdd : joinSep '/' (ddot :: y :: ys) = ddot ++ '/' :: joinSep '/' (y :: ys) := rfl
      have hne1 : (String.mk (joinSep '/' (ddot :: y :: ys)) == ".") = false := by
        simp only [beq_eq_false_iff_ne, ne_eq]
        intro he
        have h0 := congrArg String.data he
        rw [mk_data, hdd] at h0
        simp [ddot] at h0
      have hpre : strStartsWith (String.mk (joinSep '/' (ddot :: y :: ys))) "../" = true := by
        unfold strStartsWith
        rw [mk_data, hdd]
        exact List.isPrefixOf_iff_prefix.mpr ⟨joinSep '/' (y :: ys), rfl⟩
      simp [hrest, hne1, hpre]

/-! ### Well-formed environments and `locate` -/

/-- The repository root and the live root are cleaned absolute paths and
neither lies inside the other. -/
def envWF (env : Env) : Prop :=
  absCleanStr env.repoPath ∧ absCleanStr env.xdg ∧
    pathWithin env.repoPath env.xdg = .ok false ∧
    pathWithin env.xdg env.repoPath = .ok false

theorem not_prefix_of_pathWithin_false {cs es : List (List Char)}
    (hcs : ∀ c ∈ cs, goodComp c) (hes : ∀ c ∈ es, goodComp c)
    (h : pathWithin (renderAbs cs) (renderAbs es) = .ok false) : ¬ cs <+: es := by
  intro hp
  obtain ⟨t, ht⟩ := hp
  have hts : ∀ c ∈ t, goodComp c := fun c hc => hes c (ht ▸ List.mem_append_right cs hc)
  rw [← ht] at h
  rw [pathWithin_render_under hcs hts] at h
  simp at h

theorem not_prefix_append {rs xs ds : List (List Char)}
    (h1 : ¬ rs <+: xs) (h2 : ¬ xs <+: rs) : ¬ rs <+: xs ++ ds := by
  intro hp
  rcases Nat.le_total rs.length xs.length with hle | hle
  · exact h1 (List.prefix_of_prefix_length_le hp (List.prefix_append xs ds) hle)
  · exact h2 (List.prefix_of_prefix_length_le (List.prefix_append xs ds) hp hle)

theorem locate_join_repo {env : Env} {rel : String} (henv : envWF env)
    (hrel : goodRelStr rel) : locate env (pathJoin env.repoPath rel) = .repo rel := by
  obtain ⟨⟨rs, hrs, hre⟩, _, _, _⟩ := henv
  obtain ⟨ds, hdne, hds, hrele⟩ := hrel
  unfold locate
  rw [hre, hrele, pathJoin_render hrs hds hdne, pathWithin_render_under hrs hds,
    if_pos rfl, pathRel_render_under hrs hds, if_neg hdne]

theorem locate_join_live {env : Env} {rel : String} (henv : envWF env)
    (hrel : goodRelStr rel) : locate env (pathJoin env.xdg rel) = .live rel := by
  obtain ⟨⟨rs, hrs, hre⟩, ⟨xs, hxs, hxe⟩, hrx, hxr⟩ := henv
  obtain ⟨ds, hdne, hds, hrele⟩ := hrel
  have hnp1 : ¬ rs <+: xs :=
    not_prefix_of_pathWithin_false hrs hxs (by rw [← hre, ← hxe]; exact hrx)
  have hnp2 : ¬ xs <+: rs :=
    not_prefix_of_pathWithin_false hxs hrs (by rw [← hxe, ← hre]; exact hxr)
  have hgood : ∀ c ∈ xs ++ ds, goodComp c := by
    intro c hc
    rcases List.mem_append.mp hc with h1 | h2
    · exact hxs c h1
    · exact hds c h2
  unfold locate
  rw [hre, hxe, hrele, pathJoin_render hxs hds hdne,
    pathWithin_render_outside hrs hgood (not_prefix_append hnp1 hnp2),
    if_neg (by simp), pathWithin_render_under hxs hds, if_pos rfl,
    pathRel_render_under hxs hds, if_neg hdne]

theorem isAbs_join_repo {env : Env} {rel : String} (henv : envWF env)
    (hrel : goodRelStr rel) : isAbs (pathJoin env.repoPath rel) = true := by
  obtain ⟨⟨rs, hrs, hre⟩, _, _, _⟩ := henv
  obtain ⟨ds, hdne, hds, hrele⟩ := hrel
  rw [hre, hrele, pathJoin_render hrs hds hdne]
  exact isAbs_renderAbs _

theorem pathClean_join_repo {env : Env} {rel : String} (henv : envWF env)
    (hrel : goodRelStr rel) : pathClean (pathJoin env.repoPath rel) = pathJoin env.repoPath rel := by
  obtain ⟨⟨rs, hrs, hre⟩, _, _, _⟩ := henv
  obtain ⟨ds, hdne, hds, hrele⟩ := hrel
  rw [hre, hrele, pathJoin_render hrs hds hdne]
  refine pathClean_renderAbs ?_
  intro c hc
  rcases List.mem_append.mp hc with h1 | h2
  · exact hrs c h1
  · exact hds c h2

/-! ### Association list lemmas -/

theorem lookupA_eq_none {k : String} {l : List (String × FsEntry)}
    (h : k ∉ l.map Prod.fst) : lookupA k l = none := by
  induction l with
  | nil => rfl
  | cons p t ih =>
    obtain ⟨pk, pv⟩ := p
    simp only [List.map_cons, List.mem_cons, not_or] at h
    simp only [lookupA]
    rw [if_neg (fun he => h.1 he.symm)]
    exact ih h.2

theorem lookupA_updateA_self (k : String) (v : FsEntry) (l : List (String × FsEntry)) :
    lookupA k (updateA k v l) = some v := by
  induction l with
  | nil => simp [updateA, lookupA]
  | cons p t ih =>
    obtain ⟨pk, pv⟩ := p
    by_cases hk : pk = k
    · simp [updateA, hk, lookupA]
    · simp only [updateA, if_neg hk, lookupA, ih]

theorem lookupA_updateA_ne {k k2 : String} (v : FsEntry) (l : List (String × FsEntry))
    (h : k2 ≠ k) : lookupA k2 (updateA k v l) = lookupA k2 l := by
  have h1 : ¬ (k = k2) := fun he => h he.symm
  induction l with
  | nil =>
    simp only [updateA, lookupA]
    rw [if_neg h1]
  | cons p t ih =>
    obtain ⟨pk, pv⟩ := p
    by_cases hk : pk = k
    · have h2 : ¬ (pk = k2) := by rw [hk]; exact h1
      simp only [updateA, if_pos hk, lookupA]
      rw [if_neg h1, if_neg h2]
    · simp only [updateA, if_neg hk, lookupA]
      by_cases hp2 : pk = k2
      · rw [if_pos hp2, if_pos hp2]
      · rw [if_neg hp2, if_neg hp2, ih]

theorem lookupA_eraseA_ne {k k2 : String} (l : List (String × FsEntry)) (h : k2 ≠ k) :
    lookupA k2 (eraseA k l) = lookupA k2 l := by
  induction l with
  | nil => simp [eraseA, lookupA]
  | cons p t ih =>
    obtain ⟨pk, pv⟩ := p
    by_cases hk : pk = k
    · have h2 : ¬ (pk = k2) := by rw [hk]; exact fun he => h he.symm
      simp only [eraseA, if_pos hk, lookupA]
      rw [if_neg h2]
    · simp only [eraseA, if_neg hk, lookupA]
      by_cases hp2 : pk = k2
      · rw [if_pos hp2, if_pos hp2]
      · rw [if_neg hp2, if_neg hp2, ih]

theorem lookupA_eraseA_self {k : String} {l : List (String × FsEntry)}
    (hnd : (l.map Prod.fst).Nodup) : lookupA k (eraseA k l) = none := by
  induction l with
  | nil => rfl
  | cons p t ih =>
    obtain ⟨pk, pv⟩ := p
    simp only [List.map_cons, List.nodup_cons] at hnd
    by_cases hk : pk = k
    · simp only [eraseA, if_pos hk]
      rw [← hk]
      exact lookupA_eq_none hnd.1
    · simp only [eraseA, if_neg hk, lookupA]
      exact ih hnd.2

theorem mem_keys_updateA {k k2 : String} {v : FsEntry} {l : List (String × FsEntry)}
    (h : k2 ∈ (updateA k v l).map Prod.fst) : k2 ∈ l.map Prod.fst ∨ k2 = k := by
  induction l with
  | nil =>
    simp only [updateA, List.map_cons, List.map_nil, List.mem_singleton] at h
    exact Or.inr h
  | cons p t ih =>
    obtain ⟨pk, pv⟩ := p
    by_cases hk : pk = k
    · simp only [updateA, if_pos hk, List.map_cons, List.mem_cons] at h
      simp only [List.map_cons, List.mem_cons]
      rcases h with h1 | h2
      · exact Or.inr h1
      · exact Or.inl (Or.inr h2)
    · simp only [updateA, if_neg hk, List.map_cons, List.mem_cons] at h
      simp only [List.map_cons, List.mem_cons]
      rcases h with h1 | h2
      · exact Or.inl (Or.inl h1)
      · rcases ih h2 with h3 | h4
        · exact Or.inl (Or.inr h3)
        · exact Or.inr h4

theorem keys_eraseA_subset {k : String} {l : List (String × FsEntry)} {k2 : String}
    (h : k2 ∈ (eraseA k l).map Prod.fst) : k2 ∈ l.map Prod.fst := by
  induction l with
  | nil => simp [eraseA] at h
  | cons p t ih =>
    obtain ⟨pk, pv⟩ := p
    by_cases hk : pk = k
    · simp only [eraseA, if_pos hk] at h
      simp only [List.map_cons, List.mem_cons]
      exact Or.inr h
    · simp only [eraseA, if_neg hk, List.map_cons, List.mem_cons] at h
      simp only [List.map_cons, List.mem_cons]
      rcases h with h1 | h2
      · exact Or.inl h1
      · exact Or.inr (ih h2)

theorem nodup_keys_updateA {k : String} {v : FsEntry} {l : List (String × FsEntry)}
    (hnd : (l.map Prod.fst).Nodup) : ((updateA k v l).map Prod.fst).Nodup := by
  induction l with
  | nil => simp [updateA]
  | cons p t ih =>
    obtain ⟨pk, pv⟩ := p
    simp only [List.map_cons, List.nodup_cons] at hnd
    by_cases hk : pk = k
    · simp only [updateA, if_pos hk, List.map_cons, List.nodup_cons]
      refine ⟨fun hm => hnd.1 (hk ▸ hm), hnd.2⟩
    · simp only [updateA, if_neg hk, List.map_cons, List.nodup_cons]
      refine ⟨?_, ih hnd.2⟩
      intro hm
      rcases mem_keys_updateA hm with h1 | h2
      · exact hnd.1 h1
      · exact hk h2

theorem nodup_keys_eraseA {k : String} {l : List (String × FsEntry)}
    (hnd : (l.map Prod.fst).Nodup) : ((eraseA k l).map Prod.fst).Nodup := by
  induction l with
  | nil => simp [eraseA]
  | cons p t ih =>
    obtain ⟨pk, pv⟩ := p
    simp only [List.map_cons, List.nodup_cons] at hnd
    by_cases hk : pk = k
    · simp only [eraseA, if_pos hk]
      exact hnd.2
    · simp only [eraseA, if_neg hk, List.map_cons, List.nodup_cons]
      exact ⟨fun hm => hnd.1 (keys_eraseA_subset hm), ih hnd.2⟩

/-! ### Resolution lemmas -/

theorem statAbs_join_repo {env : Env} {s : FsState} {rel : String} {e : FsEntry} {fuel : Nat}
    (henv : envWF env) (hrel : goodRelStr rel)
    (he : lookupA rel s.repo = some e) (hns : ∀ t, e ≠ .symlink t) :
    statAbs env s (fuel + 1) (pathJoin env.repoPath rel) =
      .found (pathJoin env.repoPath rel) e := by
  cases e with
  | symlink t => exact absurd rfl (hns t)
  | file c => simp only [statAbs, locate_join_repo henv hrel, he]
  | dir => simp only [statAbs, locate_join_repo henv hrel, he]
  | special => simp only [statAbs, locate_join_repo henv hrel, he]

theorem statAbs_join_repo_none {env : Env} {s : FsState} {rel : String} {fuel : Nat}
    (henv : envWF env) (hrel : goodRelStr rel) (he : lookupA rel s.repo = none) :
    statAbs env s (fuel + 1) (pathJoin env.repoPath rel) = .notExist := by
  simp only [statAbs, locate_join_repo henv hrel, he]

theorem statAbs_join_live {env : Env} {s : FsState} {rel : String} {e : FsEntry} {fuel : Nat}
    (henv : envWF env) (hrel : goodRelStr rel)
    (he : lookupA rel s.live = some e) (hns : ∀ t, e ≠ .symlink t) :
    statAbs env s (fuel + 1) (pathJoin env.xdg rel) =
      .found (pathJoin env.xdg rel) e := by
  cases e with
  | symlink t => exact absurd rfl (hns t)
  | file c => simp only [statAbs, locate_join_live henv hrel, he]
  | dir => simp only [statAbs, locate_join_live henv hrel, he]
  | special => simp only [statAbs, locate_join_live henv hrel, he]

theorem readFileAbs_join_repo {env : Env} {s : FsState} {rel c : String}
    (henv : envWF env) (hrel : goodRelStr rel) (he : lookupA rel s.repo = some (.file c)) :
    readFileAbs env s (pathJoin env.repoPath rel) = some c := by
  unfold readFileAbs
  have h40 : evalFuel = 39 + 1 := rfl
  rw [h40, statAbs_join_repo henv hrel he (fun t h => FsEntry.noConfusion h)]

theorem readFileAbs_join_live {env : Env} {s : FsState} {rel c : String}
    (henv : envWF env) (hrel : goodRelStr rel) (he : lookupA rel s.live = some (.file c)) :
    readFileAbs env s (pathJoin env.xdg rel) = some c := by
  unfold readFileAbs
  have h40 : evalFuel = 39 + 1 := rfl
  rw [h40, statAbs_join_live henv hrel he (fun t h => FsEntry.noConfusion h)]

/-- A symlink whose raw target is the repository file of a managed path
whose repository entry is a plain file resolves to exactly that path. -/
theorem symlinkPointsTo_join_self {env : Env} {s : FsState} {rel c : String}
    (henv : envWF env) (hrel : goodRelStr rel)
    (he : lookupA rel s.repo = some (.file c)) (linkPath : String) :
    symlinkPointsTo env s linkPath (pathJoin env.repoPath rel) (pathJoin env.repoPath rel) =
      .ok true := by
  unfold symlinkPointsTo absTarget
  simp only [isAbs_join_repo henv hrel, reduceIte]
  rw [pathClean_join_repo henv hrel]
  have h40 : evalFuel = 39 + 1 := rfl
  rw [h40, statAbs_join_repo henv hrel he (fun t h => FsEntry.noConfusion h)]
  simp [pathClean_join_repo henv hrel]

/-! ### Idempotence of the path classifier on whitespace-free results -/

theorem normalizeManagedPath_ok_parts {s r : String} (h : normalizeManagedPath s = .ok r) :
    pathClean (trimSpace s) = r ∧
      (r == "." || r == "") = false ∧ strStartsWith r "/" = false ∧
      (strStartsWith r "../" || strContainsSub r "/../") = false ∧
      isMetadataPath r = false := by
  simp only [normalizeManagedPath, toSlash] at h
  by_cases c1 : (pathClean (trimSpace s) == "." || pathClean (trimSpace s) == "") = true
  · rw [if_pos c1] at h; cases h
  rw [if_neg c1] at h
  by_cases c2 : strStartsWith (pathClean (trimSpace s)) "/" = true
  · rw [if_pos c2] at h; cases h
  rw [if_neg c2] at h
  by_cases c3 : (strStartsWith (pathClean (trimSpace s)) "../" ||
      strContainsSub (pathClean (trimSpace s)) "/../") = true
  · rw [if_pos c3] at h; cases h
  rw [if_neg c3] at h
  by_cases c4 : isMetadataPath (pathClean (trimSpace s)) = true
  · rw [if_pos c4] at h; cases h
  rw [if_neg c4] at h
  have hr : pathClean (trimSpace s) = r := by
    cases h; rfl
  subst hr
  exact ⟨rfl, Bool.not_eq_true _ ▸ Bool.eq_false_iff.mpr c1, Bool.eq_false_iff.mpr c2,
    Bool.eq_false_iff.mpr c3, Bool.eq_false_iff.mpr c4⟩

theorem normalizeManagedPath_ok_of_checks {r : String}
    (hclean : pathClean (trimSpace r) = r)
    (h1 : (r == "." || r == "") = false) (h2 : strStartsWith r "/" = false)
    (h3 : (strStartsWith r "../" || strContainsSub r "/../") = false)
    (h4 : isMetadataPath r = false) : normalizeManagedPath r = .ok r := by
  simp only [normalizeManagedPath, toSlash, hclean, h1, h2, h3, h4]
  rfl

/-! ### Sample environment used by concrete witnesses -/

def sampleEnv : Env := { repoPath := "/repo", xdg := "/home/u/.config" }

/-! ## Claim theorems -/

/-- C7 (code bug evidence): the classifier rejects `/etc/passwd`,
`../../etc/passwd`, `.git` and `.git/config` and normalizes
`./nvim/init.lua`, but the input `..` — whose cleaned form is exactly the
traversal component `..` — is ACCEPTED and returned as a managed key,
contradicting the classifier's own "path traversal is not allowed"
rejection rule. -/
theorem normalizeManagedPath_accepts_bare_dotdot :
    normalizeManagedPath ".." = .ok ".." ∧
    normalizeManagedPath "/etc/passwd" = .error "absolute paths are not allowed" ∧
    normalizeManagedPath "../../etc/passwd" = .error "path traversal is not allowed" ∧
    normalizeManagedPath ".git" = .error "path is reserved" ∧
    normalizeManagedPath ".git/config" = .error "path is reserved" ∧
    normalizeManagedPath "./nvim/init.lua" = .ok "nvim/init.lua" := by
  decide

/-- C10 (counterexample): `normalizeManagedPath` is not idempotent on all
accepted inputs: the input `a /` is accepted with result `a ` (trailing
space kept by `path.Clean`), but re-normalizing `a ` trims the space and
returns `a` instead of `a `. -/
theorem normalizeManagedPath_not_idem :
    normalizeManagedPath "a /" = .ok "a " ∧ normalizeManagedPath "a " ≠ .ok "a " := by
  decide

/-- C10 (amended): `normalizeManagedPath` is idempotent on every accepted
input whose returned path carries no leading or trailing whitespace: the
returned path is re-accepted and returned unchanged. -/
theorem normalizeManagedPath_idem_of_trimmed {s r : String}
    (h : normalizeManagedPath s = .ok r) (htrim : trimSpace r = r) :
    normalizeManagedPath r = .ok r := by
  obtain ⟨hc, h1, h2, h3, h4⟩ := normalizeManagedPath_ok_parts h
  have hcr : pathClean (trimSpace r) = r := by
    rw [htrim, ← hc, pathClean_idem]
  exact normalizeManagedPath_ok_of_checks hcr h1 h2 h3 h4

theorem normalizeManagedPath_idem_of_trimmed_witness :
    normalizeManagedPath "./nvim/init.lua" = .ok "nvim/init.lua" ∧
      trimSpace "nvim/init.lua" = "nvim/init.lua" ∧
      normalizeManagedPath "nvim/init.lua" = .ok "nvim/init.lua" :=
  ⟨by decide, by decide,
    @normalizeManagedPath_idem_of_trimmed "./nvim/init.lua" "nvim/init.lua" (by decide) (by decide)⟩

/-- C8 (counterexample): the compiled matcher for the single pattern
`node_modules/**` DOES match the path `node_modules` when evaluated as a
directory (the `rel ++ "/"` directory rule makes `^node_modules/.*$` match
`node_modules/`), and the compiled matcher for the single pattern
`**/node_modules` does NOT match the bare path `node_modules` (its
regular expression `^.*/node_modules$` demands a literal separator). -/
theorem shouldIgnorePath_claim_counterexample :
    compileGlobMatchers ["node_modules/**"] = .ok [globTokens "node_modules/**".data] ∧
    shouldIgnorePath "node_modules" true [globTokens "node_modules/**".data] = true ∧
    compileGlobMatchers ["**/node_modules"] = .ok [globTokens "**/node_modules".data] ∧
    shouldIgnorePath "node_modules" false [globTokens "**/node_modules".data] = false ∧
    shouldIgnorePath "node_modules" true [globTokens "**/node_modules".data] = false := by
  decide

/-- C8 (amended): the matcher for `node_modules/**` matches
`node_modules/pkg/index.js`, does not match `node_modules` as a file, but
does match `node_modules` as a directory via the trailing-slash directory
rule; the matcher for `**/node_modules` matches `a/b/node_modules` but
does not match the bare `node_modules` (as file or directory). -/
theorem shouldIgnorePath_node_modules_behavior :
    shouldIgnorePath "node_modules/pkg/index.js" false
        [globTokens "node_modules/**".data] = true ∧
    shouldIgnorePath "node_modules" false [globTokens "node_modules/**".data] = false ∧
    shouldIgnorePath "node_modules" true [globTokens "node_modules/**".data] = true ∧
    shouldIgnorePath "a/b/node_modules" false [globTokens "**/node_modules".data] = true ∧
    shouldIgnorePath "node_modules" false [globTokens "**/node_modules".data] = false ∧
    shouldIgnorePath "node_modules" true [globTokens "**/node_modules".data] = false := by
  decide

/-- C9: with an empty managed set the doctor command returns immediately:
it prints `No tracked files found.`, performs no filesystem mutation, runs
no orphan-symlink pass (the report is empty in all four buckets) and
succeeds. -/
theorem cmdDoctor_no_tracked (env : Env) (s : FsState) (matchers : List (List GlobTok)) :
    cmdDoctorWithRepo env s [] matchers =
      { state := s, report := {}, output := ["No tracked files found."], success := true } :=
  rfl

/-- C2: the doctor command succeeds iff the combined
`requireManualResolve` bucket is empty after both passes, and the printed
report contains a `  - <path>` line for every entry of that bucket. -/
theorem cmdDoctor_success_iff (env : Env) (s : FsState) (managed : List String)
    (matchers : List (List GlobTok)) :
    ((cmdDoctorWithRepo env s managed matchers).success = true ↔
      (cmdDoctorWithRepo env s managed matchers).report.requireManualResolve = []) ∧
    ∀ p ∈ (cmdDoctorWithRepo env s managed matchers).report.requireManualResolve,
      ("  - " ++ p) ∈ (cmdDoctorWithRepo env s managed matchers).output := by
  unfold cmdDoctorWithRepo
  by_cases hm : managed.isEmpty
  · rw [if_pos hm]
    exact ⟨by simp, by simp⟩
  · rw [if_neg hm]
    refine ⟨by simp [List.isEmpty_iff], ?_⟩
    intro p hp
    simp only at hp ⊢
    unfold printDoctorReport
    apply List.mem_append_right
    unfold reportSection
    apply List.mem_append_right
    have hne := List.ne_nil_of_mem hp
    rw [if_neg (by simpa [List.isEmpty_iff] using hne)]
    exact List.mem_map_of_mem _ hp

theorem cmdDoctor_success_iff_witness :
    ("  - a") ∈ (cmdDoctorWithRepo sampleEnv
      { repo := [("a", .file "x")], repoDirs := [], live := [("a", .file "y")] }
      ["a"] []).output :=
  (cmdDoctor_success_iff sampleEnv
    { repo := [("a", .file "x")], repoDirs := [], live := [("a", .file "y")] }
    ["a"] []).2 "a" (by decide)

theorem updateA_absent {k : String} {l : List (String × FsEntry)} (v : FsEntry)
    (h : lookupA k l = none) : updateA k v l = l ++ [(k, v)] := by
  induction l with
  | nil => rfl
  | cons p t ih =>
    obtain ⟨pk, pv⟩ := p
    simp only [lookupA] at h
    by_cases hk : pk = k
    · rw [if_pos hk] at h; cases h
    · rw [if_neg hk] at h
      simp only [updateA, if_neg hk, List.cons_append, List.cons.injEq, true_and]
      exact ih h

theorem eraseA_append_absent {k : String} {l : List (String × FsEntry)} (v : FsEntry)
    (h : lookupA k l = none) : eraseA k (l ++ [(k, v)]) = l := by
  induction l with
  | nil => simp [eraseA]
  | cons p t ih =>
    obtain ⟨pk, pv⟩ := p
    simp only [lookupA] at h
    by_cases hk : pk = k
    · rw [if_pos hk] at h; cases h
    · rw [if_neg hk] at h
      simp only [List.cons_append, eraseA, if_neg hk, List.cons.injEq, true_and]
      exact ih h

/-- C5 (counterexample): with the move into the repository done and
symlink creation failing, a run whose compensating move-back also fails
produces the very same operation report as a run whose move-back
succeeds — only the original `create symlink` failure is surfaced and the
rollback failure is discarded (the `_ = moveFile(repoFile, liveFile)` in
the source) — although the two resulting filesystem states differ. -/
theorem trackOne_rollback_failure_not_surfaced :
    (trackOne sampleEnv { symlinkFails := some "permission denied", rollbackFails := true }
        ({ repo := [], repoDirs := [], live := [("a", .file "x")] }, {}, []) "a").2.1 =
      (trackOne sampleEnv { symlinkFails := some "permission denied", rollbackFails := false }
        ({ repo := [], repoDirs := [], live := [("a", .file "x")] }, {}, []) "a").2.1 ∧
    (trackOne sampleEnv { symlinkFails := some "permission denied", rollbackFails := true }
        ({ repo := [], repoDirs := [], live := [("a", .file "x")] }, {}, []) "a").1 ≠
      (trackOne sampleEnv { symlinkFails := some "permission denied", rollbackFails := false }
        ({ repo := [], repoDirs := [], live := [("a", .file "x")] }, {}, []) "a").1 ∧
    (trackOne sampleEnv { symlinkFails := some "permission denied", rollbackFails := true }
        ({ repo := [], repoDirs := [], live := [("a", .file "x")] }, {}, []) "a").2.1.failed =
      ["a: create symlink: permission denied"] := by
  decide

/-- C5 (amended): when the move into the repository succeeded and the live
symlink creation (or the live parent-directory creation) fails, the
compensating move back is attempted.  When it succeeds no repository-only
copy remains and the live file is restored, with the original failure in
the report; when the compensating move itself fails, the report is the
same — only the original failure is surfaced — while the file stays in the
repository and the live entry stays gone. -/
theorem trackOne_rolls_back {env : Env} {s : FsState} {rep : OperationReport}
    {ms : List String} {raw rel content : String} (e : String)
    (hn : normalizeManagedPath raw = .ok rel)
    (hm : ms.contains rel = false)
    (hl : lookupA rel s.live = some (.file content))
    (hstat : statAbs env s evalFuel (pathJoin env.repoPath rel) = .notExist)
    (hrepo : lookupA rel s.repo = none)
    (hnd : (s.live.map Prod.fst).Nodup) :
    (let o1 := trackOne env { symlinkFails := some e } (s, rep, ms) raw
     lookupA rel o1.1.repo = none ∧ lookupA rel o1.1.live = some (.file content) ∧
       o1.2.1.failed = rep.failed ++ [rel ++ ": create symlink: " ++ e] ∧
       o1.2.1.succeeded = rep.succeeded ∧ o1.2.1.skipped = rep.skipped) ∧
    (let o2 := trackOne env { mkdirLiveFails := some e } (s, rep, ms) raw
     lookupA rel o2.1.repo = none ∧ lookupA rel o2.1.live = some (.file content) ∧
       o2.2.1.failed = rep.failed ++ [rel ++ ": restore after mkdir failure: " ++ e]) ∧
    (let o3 := trackOne env { symlinkFails := some e, rollbackFails := true } (s, rep, ms) raw
     o3.2.1 = (trackOne env { symlinkFails := some e } (s, rep, ms) raw).2.1 ∧
       lookupA rel o3.1.repo = some (.file content) ∧ lookupA rel o3.1.live = none) := by
  have hupd : updateA rel (.file content) s.repo = s.repo ++ [(rel, .file content)] :=
    updateA_absent _ hrepo
  have herase : eraseA rel (updateA rel (.file content) s.repo) = s.repo := by
    rw [hupd]; exact eraseA_append_absent _ hrepo
  refine ⟨?_, ?_, ?_⟩
  · simp only [trackOne, hn, hm, Bool.false_eq_true, reduceIte, hl, hstat, rollbackMove]
    refine ⟨by rw [herase]; exact hrepo, by rw [lookupA_updateA_self], trivial, trivial, trivial⟩
  · simp only [trackOne, hn, hm, Bool.false_eq_true, reduceIte, hl, hstat, rollbackMove]
    refine ⟨by rw [herase]; exact hrepo, by rw [lookupA_updateA_self], trivial⟩
  · simp only [trackOne, hn, hm, Bool.false_eq_true, reduceIte, hl, hstat, rollbackMove]
    refine ⟨trivial, by rw [lookupA_updateA_self], lookupA_eraseA_self hnd⟩

theorem trackOne_rolls_back_witness :
    normalizeManagedPath "a" = .ok "a" ∧
      ([] : List String).contains "a" = false ∧
      lookupA "a" ([("a", FsEntry.file "x")]) = some (.file "x") ∧
      (trackOne sampleEnv { symlinkFails := some "boom" }
        ({ repo := [], repoDirs := [], live := [("a", .file "x")] },
          ({} : OperationReport), ([] : List String)) "a").2.1.failed =
        [] ++ ["a" ++ ": create symlink: " ++ "boom"] :=
  ⟨by decide, by decide, by decide,
    (@trackOne_rolls_back sampleEnv
      { repo := [], repoDirs := [], live := [("a", .file "x")] } {} [] "a" "a" "x" "boom"
      (by decide) (by decide) (by decide) (by decide) (by decide) (by decide)).1.2.2.1⟩

/-! ### Pruning empty repository directories upward -/

theorem removeStr_subset {d x : String} {l : List String} (h : x ∈ removeStr d l) : x ∈ l := by
  induction l with
  | nil => simpa [removeStr] using h
  | cons y t ih =>
    by_cases hy : y = d
    · simp only [removeStr, if_pos hy] at h
      exact List.mem_cons_of_mem y h
    · simp only [removeStr, if_neg hy, List.mem_cons] at h
      rcases h with h1 | h2
      · exact h1 ▸ List.mem_cons_self y t
      · exact List.mem_cons_of_mem y (ih h2)

theorem mem_removeStr_of_ne {d x : String} {l : List String} (hx : x ∈ l) (hne : x ≠ d) :
    x ∈ removeStr d l := by
  induction l with
  | nil => simpa using hx
  | cons y t ih =>
    by_cases hy : y = d
    · simp only [removeStr, if_pos hy]
      rcases List.mem_cons.mp hx with h1 | h2
      · exact absurd (h1.trans hy) hne
      · exact h2
    · simp only [removeStr, if_neg hy, List.mem_cons]
      rcases List.mem_cons.mp hx with h1 | h2
      · exact Or.inl h1
      · exact Or.inr (ih h2)

theorem not_mem_removeStr {d : String} {l : List String} (hnd : l.Nodup) :
    d ∉ removeStr d l := by
  induction l with
  | nil => simp [removeStr]
  | cons y t ih =>
    simp only [List.nodup_cons] at hnd
    by_cases hy : y = d
    · simp only [removeStr, if_pos hy]
      exact fun hm => hnd.1 (hy ▸ hm)
    · simp only [removeStr, if_neg hy, List.mem_cons, not_or]
      exact ⟨fun he => hy he.symm, ih hnd.2⟩

theorem nodup_removeStr {d : String} {l : List String} (hnd : l.Nodup) :
    (removeStr d l).Nodup := by
  induction l with
  | nil => simpa [removeStr] using hnd
  | cons y t ih =>
    simp only [List.nodup_cons] at hnd
    by_cases hy : y = d
    · simp only [removeStr, if_pos hy]
      exact hnd.2
    · simp only [removeStr, if_neg hy, List.nodup_cons]
      exact ⟨fun hm => hnd.1 (removeStr_subset hm), ih hnd.2⟩

theorem removeEmptyDirsUpward_post (s : FsState) (fuel : Nat) (d : String) :
    (removeEmptyDirsUpward s fuel d).repo = s.repo ∧
      (removeEmptyDirsUpward s fuel d).live = s.live ∧
      (∀ x ∈ (removeEmptyDirsUpward s fuel d).repoDirs, x ∈ s.repoDirs) ∧
      ((removeEmptyDirsUpward s fuel d).repoDirs.Nodup → True) := by
  induction fuel generalizing s d with
  | zero => exact ⟨rfl, rfl, fun x hx => hx, fun _ => trivial⟩
  | succ n ih =>
    simp only [removeEmptyDirsUpward]
    by_cases h1 : (d == "." || d == "") = true
    · rw [if_pos h1]
      exact ⟨rfl, rfl, fun x hx => hx, fun _ => trivial⟩
    rw [if_neg h1]
    by_cases h2 : (!s.repoDirs.contains d) = true
    · rw [if_pos h2]
      exact ⟨rfl, rfl, fun x hx => hx, fun _ => trivial⟩
    rw [if_neg h2]
    by_cases h3 : (!repoDirEmpty s d) = true
    · rw [if_pos h3]
      exact ⟨rfl, rfl, fun x hx => hx, fun _ => trivial⟩
    rw [if_neg h3]
    obtain ⟨ha, hb, hc, _⟩ := ih { s with repoDirs := removeStr d s.repoDirs } (parentRel d)
    exact ⟨ha, hb, fun x hx => removeStr_subset (hc x hx), fun _ => trivial⟩

theorem joinSep_append_of_ne_nil {sep : Char} {a b : List (List Char)}
    (ha : a ≠ []) (hb : b ≠ []) :
    joinSep sep (a ++ b) = joinSep sep a ++ sep :: joinSep sep b := by
  induction a with
  | nil => exact absurd rfl ha
  | cons x xs ih =>
    cases xs with
    | nil =>
      rw [List.singleton_append, joinSep_cons_of_ne_nil hb]
      rfl
    | cons y ys =>
      rw [List.cons_append, joinSep_cons_of_ne_nil (by simp),
        joinSep_cons_of_ne_nil (by simp), ih (by simp)]
      simp

theorem renderRel_take_ne {comps : List (List Char)} (hg : ∀ c ∈ comps, goodComp c)
    {i j : Nat} (hi : 1 ≤ i) (hij : i < j) (hj : j ≤ comps.length) :
    renderRel (comps.take i) ≠ renderRel (comps.take j) := by
  intro he
  have hgi : ∀ c ∈ comps.take i, goodComp c := fun c hc => hg c (List.take_subset i comps hc)
  have hgj : ∀ c ∈ comps.take j, goodComp c := fun c hc => hg c (List.take_subset j comps hc)
  have h1 := pathComponents_renderRel hgi
  have h2 := pathComponents_renderRel hgj
  have hc : comps.take i = comps.take j := by rw [← h1, ← h2, he]
  have hl := congrArg List.length hc
  simp only [List.length_take] at hl
  omega

theorem strStartsWith_renderRel_take {comps : List (List Char)}
    (hg : ∀ c ∈ comps, goodComp c) {i m : Nat} (hi : 1 ≤ i) (him : i < m)
    (hm : m ≤ comps.length) :
    strStartsWith (renderRel (comps.take m)) (renderRel (comps.take i) ++ "/") = true := by
  have hsplit : comps.take m = comps.take i ++ (comps.drop i).take (m - i) := by
    rw [← List.take_add comps i (m - i)]
    congr 1
    omega
  have hina : comps.take i ≠ [] := by
    have : (comps.take i).length = i := by
      rw [List.length_take]
      omega
    intro he
    rw [he] at this
    simp at this
    omega
  have hinb : (comps.drop i).take (m - i) ≠ [] := by
    have : ((comps.drop i).take (m - i)).length = m - i := by
      rw [List.length_take, List.length_drop]
      omega
    intro he
    rw [he] at this
    simp at this
    omega
  unfold strStartsWith renderRel
  rw [String.data_append, mk_data, mk_data, hsplit, joinSep_append_of_ne_nil hina hinb]
  refine List.isPrefixOf_iff_prefix.mpr ?_
  show joinSep '/' (comps.take i) ++ "/".data <+: _
  exact ⟨joinSep '/' ((comps.drop i).take (m - i)), by simp⟩

theorem parentRel_renderRel_take {comps : List (List Char)} (hg : ∀ c ∈ comps, goodComp c)
    {j : Nat} (hj : j + 1 ≤ comps.length) :
    parentRel (renderRel (comps.take (j + 1))) =
      if j = 0 then "." else renderRel (comps.take j) := by
  have hgt : ∀ c ∈ comps.take (j + 1), goodComp c :=
    fun c hc => hg c (List.take_subset _ comps hc)
  have hlen : (comps.take (j + 1)).length = j + 1 := by
    rw [List.length_take]
    omega
  have hne : comps.take (j + 1) ≠ [] := by
    intro he
    rw [he] at hlen
    simp at hlen
  simp only [parentRel, renderRel, mk_data]
  rw [splitSep_joinSep (fun p hp => (hgt p hp).2.2.2) hne, hlen]
  cases j with
  | zero => rw [if_pos (by omega), if_pos rfl]
  | succ k =>
    rw [if_neg (by omega), if_neg (by omega)]
    have hdl : (comps.take (k + 2)).dropLast = comps.take (k + 1) := by
      rw [List.dropLast_eq_take, hlen]
      simp only [Nat.add_sub_cancel, List.take_take]
      congr 1
      omega
    rw [hdl]

theorem repoDirEmpty_false_of_subdir {s : FsState} {d d2 : String}
    (hm : d2 ∈ s.repoDirs) (hu : underDir d d2 = true) : repoDirEmpty s d = false := by
  unfold repoDirEmpty
  have : s.repoDirs.any (fun x => underDir d x) = true := List.any_eq_true.mpr ⟨d2, hm, hu⟩
  rw [this]
  simp

theorem prune_chain {comps : List (List Char)} (hg : ∀ c ∈ comps, goodComp c) :
    ∀ j, j < comps.length → ∀ fuel, j < fuel → ∀ s : FsState,
      (∀ i, 1 ≤ i → i ≤ j → renderRel (comps.take i) ∈ s.repoDirs) →
      s.repoDirs.Nodup →
      ((removeEmptyDirsUpward s fuel
          (if j = 0 then "." else renderRel (comps.take j))).repo = s.repo ∧
        (removeEmptyDirsUpward s fuel
          (if j = 0 then "." else renderRel (comps.take j))).live = s.live ∧
        (∀ x ∈ (removeEmptyDirsUpward s fuel
          (if j = 0 then "." else renderRel (comps.take j))).repoDirs, x ∈ s.repoDirs) ∧
        ∀ i, 1 ≤ i → i ≤ j →
          renderRel (comps.take i) ∈ (removeEmptyDirsUpward s fuel
            (if j = 0 then "." else renderRel (comps.take j))).repoDirs →
          repoDirEmpty (removeEmptyDirsUpward s fuel
            (if j = 0 then "." else renderRel (comps.take j)))
            (renderRel (comps.take i)) = false) := by
  intro j
  induction j with
  | zero =>
    intro _ fuel hfuel s _ _
    cases fuel with
    | zero => omega
    | succ f =>
      rw [if_pos rfl]
      simp only [removeEmptyDirsUpward]
      rw [if_pos (by decide)]
      exact ⟨rfl, rfl, fun x hx => hx, fun i hi1 hi2 _ => by omega⟩
  | succ k ih =>
    intro hj fuel hfuel s hpres hnd
    cases fuel with
    | zero => omega
    | succ f =>
      rw [if_neg (by omega)]
      have hgt : ∀ c ∈ comps.take (k + 1), goodComp c :=
        fun c hc => hg c (List.take_subset _ comps hc)
      have hlen : (comps.take (k + 1)).length = k + 1 := by
        rw [List.length_take]
        omega
      have hne : comps.take (k + 1) ≠ [] := by
        intro he
        rw [he] at hlen
        simp at hlen
      have hdd : renderRel (comps.take (k + 1)) ∈ s.repoDirs :=
        hpres (k + 1) (by omega) (by omega)
      have hceq : ((renderRel (comps.take (k + 1)) == ".") ||
          (renderRel (comps.take (k + 1)) == "")) = false := by
        rw [(renderRel_not_traversal hgt hne).1,
          beq_eq_false_iff_ne.mpr (renderRel_ne_empty hgt hne)]
        rfl
      have hcont : (!s.repoDirs.contains (renderRel (comps.take (k + 1)))) = false := by
        have h : s.repoDirs.contains (renderRel (comps.take (k + 1))) = true :=
          List.elem_eq_true_of_mem hdd
        rw [h]
        rfl
      simp only [removeEmptyDirsUpward, hceq, Bool.false_eq_true, reduceIte, hcont]
      by_cases hemp : repoDirEmpty s (renderRel (comps.take (k + 1))) = true
      · have hne2 : ¬ ((!repoDirEmpty s (renderRel (comps.take (k + 1)))) = true) := by
          rw [hemp]
          simp
        rw [if_neg hne2]
        rw [parentRel_renderRel_take hg (by omega)]
        have hih := ih (by omega) f (by omega)
          { s with repoDirs := removeStr (renderRel (comps.take (k + 1))) s.repoDirs }
          (fun i hi1 hi2 => mem_removeStr_of_ne (hpres i hi1 (by omega))
            (renderRel_take_ne hg hi1 (by omega) (by omega)))
          (nodup_removeStr hnd)
        obtain ⟨ha, hb, hc, hd⟩ := hih
        refine ⟨ha, hb, fun x hx => removeStr_subset (hc x hx), ?_⟩
        intro i hi1 hi2 hmem
        by_cases hik : i ≤ k
        · exact hd i hi1 hik hmem
        · have hieq : i = k + 1 := by omega
          subst hieq
          exact absurd (hc _ hmem) (not_mem_removeStr hnd)
      · have hf : repoDirEmpty s (renderRel (comps.take (k + 1))) = false :=
          Bool.eq_false_iff.mpr hemp
        rw [if_pos (by rw [hf]; rfl)]
        refine ⟨rfl, rfl, fun x hx => hx, ?_⟩
        intro i hi1 hi2 _
        by_cases hik : i ≤ k
        · exact repoDirEmpty_false_of_subdir hdd
            (strStartsWith_renderRel_take hg hi1 (by omega) (by omega))
        · have hieq : i = k + 1 := by omega
          subst hieq
          exact Bool.eq_false_iff.mpr hemp

theorem properAncestors_renderRel {comps : List (List Char)} (hg : ∀ c ∈ comps, goodComp c)
    (hne : comps ≠ []) :
    properAncestors (renderRel comps) =
      (List.range (comps.length - 1)).map (fun i => renderRel (comps.take (i + 1))) := by
  unfold properAncestors renderRel
  rw [mk_data, splitSep_joinSep (fun p hp => (hg p hp).2.2.2) hne]

/-- Summary of the `removeEmptyDirsUpward` call made by `cmdRemove` after a
deletion: files and live entries untouched, and every proper ancestor
directory of the deleted key that survives the pruning is non-empty. -/
theorem remove_prune_summary {rel : String} (hrel : goodRelStr rel) (s3 : FsState)
    (hanc : ∀ d ∈ properAncestors rel, d ∈ s3.repoDirs)
    (hndd : s3.repoDirs.Nodup) :
    (removeEmptyDirsUpward s3 ((splitSep '/' rel.data).length + 1) (parentRel rel)).repo
        = s3.repo ∧
    (removeEmptyDirsUpward s3 ((splitSep '/' rel.data).length + 1) (parentRel rel)).live
        = s3.live ∧
    ∀ d ∈ properAncestors rel,
      d ∈ (removeEmptyDirsUpward s3 ((splitSep '/' rel.data).length + 1)
            (parentRel rel)).repoDirs →
      repoDirEmpty (removeEmptyDirsUpward s3 ((splitSep '/' rel.data).length + 1)
            (parentRel rel)) d = false := by
  obtain ⟨comps, hcne, hcg, hre⟩ := hrel
  subst hre
  have hsplit : splitSep '/' (renderRel comps).data = comps := by
    unfold renderRel
    rw [mk_data]
    exact splitSep_joinSep (fun p hp => (hcg p hp).2.2.2) hcne
  have hlen0 : comps.length ≠ 0 := fun h => hcne (List.length_eq_zero.mp h)
  have htake : comps.take ((comps.length - 1) + 1) = comps := by
    have he : (comps.length - 1) + 1 = comps.length := by omega
    rw [he, List.take_length]
  have hparent : parentRel (renderRel comps) =
      if comps.length - 1 = 0 then "." else renderRel (comps.take (comps.length - 1)) := by
    conv_lhs => rw [← htake]
    exact parentRel_renderRel_take hcg (by omega)
  have hPA := properAncestors_renderRel hcg hcne
  have hpres : ∀ i, 1 ≤ i → i ≤ comps.length - 1 →
      renderRel (comps.take i) ∈ s3.repoDirs := by
    intro i hi1 hi2
    apply hanc
    rw [hPA]
    refine List.mem_map.mpr ⟨i - 1, List.mem_range.mpr (by omega), ?_⟩
    have he : i - 1 + 1 = i := by omega
    rw [he]
  have hchain := prune_chain hcg (comps.length - 1) (by omega)
    (comps.length + 1) (by omega) s3 hpres hndd
  rw [hsplit, hparent]
  obtain ⟨h1, h2, _, h4⟩ := hchain
  refine ⟨h1, h2, ?_⟩
  intro d hd hmem
  rw [hPA] at hd
  obtain ⟨i, hi, hdi⟩ := List.mem_map.mp hd
  rw [List.mem_range] at hi
  subst hdi
  exact h4 (i + 1) (by omega) (by omega) hmem

/-- The sample environment is well formed: both roots are cleaned absolute
paths, neither inside the other. -/
theorem sampleEnv_wf : envWF sampleEnv :=
  ⟨⟨[['r', 'e', 'p', 'o']], by decide, by decide⟩,
   ⟨[['h', 'o', 'm', 'e'], ['u'], ['.', 'c', 'o', 'n', 'f', 'i', 'g']], by decide, by decide⟩,
   by decide, by decide⟩

/-- C6: for a selected path whose repository entry is a regular file, the
untrack operation first ensures an independent live regular file with the
repository content and only then deletes the repository entry: an absent
live entry gets a fresh copy, a live symlink pointing at the repository
file is replaced by a real copy, an existing live regular file is left
as-is; a live symlink pointing elsewhere or a non-regular live entry makes
the operation fail with the state fully unchanged; and after a successful
deletion the pruning pass leaves no surviving proper ancestor directory
empty (it stops at the repository root). -/
theorem removeOne_ensures_live_copy {env : Env} {s : FsState} {rep : OperationReport}
    {raw rel c : String}
    (henv : envWF env) (hrel : goodRelStr rel)
    (hn : normalizeManagedPath raw = .ok rel)
    (hrepo : lookupA rel s.repo = some (.file c))
    (hndr : (s.repo.map Prod.fst).Nodup)
    (hanc : ∀ d ∈ properAncestors rel, d ∈ s.repoDirs)
    (hndd : s.repoDirs.Nodup) :
    (lookupA rel s.live = none →
      (let o := removeOne env (s, rep) raw
       lookupA rel o.1.repo = none ∧ lookupA rel o.1.live = some (.file c) ∧
         o.2.succeeded = rep.succeeded ++ [rel] ∧ o.2.failed = rep.failed ∧
         ∀ d ∈ properAncestors rel, d ∈ o.1.repoDirs → repoDirEmpty o.1 d = false)) ∧
    (lookupA rel s.live = some (.symlink (pathJoin env.repoPath rel)) →
      (let o := removeOne env (s, rep) raw
       lookupA rel o.1.repo = none ∧ lookupA rel o.1.live = some (.file c) ∧
         o.2.succeeded = rep.succeeded ++ [rel] ∧ o.2.failed = rep.failed ∧
         ∀ d ∈ properAncestors rel, d ∈ o.1.repoDirs → repoDirEmpty o.1 d = false)) ∧
    (∀ lc, lookupA rel s.live = some (.file lc) →
      (let o := removeOne env (s, rep) raw
       lookupA rel o.1.repo = none ∧ o.1.live = s.live ∧
         o.2.succeeded = rep.succeeded ++ [rel] ∧ o.2.failed = rep.failed ∧
         ∀ d ∈ properAncestors rel, d ∈ o.1.repoDirs → repoDirEmpty o.1 d = false)) ∧
    (∀ t, lookupA rel s.live = some (.symlink t) →
      symlinkPointsTo env s (pathJoin env.xdg rel) t (pathJoin env.repoPath rel) = .ok false →
      removeOne env (s, rep) raw =
        (s, { rep with failed :=
          rep.failed ++ [rel ++ ": " ++ "live symlink points elsewhere"] })) ∧
    (lookupA rel s.live = some .dir →
      removeOne env (s, rep) raw =
        (s, { rep with failed :=
          rep.failed ++ [rel ++ ": " ++ "live path is not a regular file"] })) := by
  have h40 : evalFuel = 39 + 1 := rfl
  have hstat : statAbs env s evalFuel (pathJoin env.repoPath rel) =
      .found (pathJoin env.repoPath rel) (.file c) := by
    rw [h40]
    exact statAbs_join_repo henv hrel hrepo (fun t h => FsEntry.noConfusion h)
  refine ⟨?_, ?_, ?_, ?_, ?_⟩
  · intro hlive
    have hread : readFileAbs env s (pathJoin env.repoPath rel) = some c :=
      readFileAbs_join_repo henv hrel hrepo
    simp only [removeOne, hn, hstat, ensureLiveCopyForRemove, hlive, hread, hrepo]
    obtain ⟨hp1, hp2, hp3⟩ := remove_prune_summary hrel
      { repo := eraseA rel s.repo, repoDirs := s.repoDirs,
        live := updateA rel (.file c) s.live } hanc hndd
    refine ⟨?_, ?_, trivial, trivial, hp3⟩
    · rw [hp1]
      exact lookupA_eraseA_self hndr
    · rw [hp2]
      exact lookupA_updateA_self _ _ _
  · intro hlive
    have hpt := symlinkPointsTo_join_self henv hrel hrepo (pathJoin env.xdg rel)
    have hread2 : readFileAbs env { s with live := eraseA rel s.live }
        (pathJoin env.repoPath rel) = some c :=
      readFileAbs_join_repo henv hrel hrepo
    simp only [removeOne, hn, hstat, ensureLiveCopyForRemove, hlive, hpt, hread2, hrepo]
    obtain ⟨hp1, hp2, hp3⟩ := remove_prune_summary hrel
      { repo := eraseA rel s.repo, repoDirs := s.repoDirs,
        live := updateA rel (.file c) (eraseA rel s.live) } hanc hndd
    refine ⟨?_, ?_, trivial, trivial, hp3⟩
    · rw [hp1]
      exact lookupA_eraseA_self hndr
    · rw [hp2]
      exact lookupA_updateA_self _ _ _
  · intro lc hlive
    simp only [removeOne, hn, hstat, ensureLiveCopyForRemove, hlive, hrepo]
    obtain ⟨hp1, hp2, hp3⟩ := remove_prune_summary hrel
      { repo := eraseA rel s.repo, repoDirs := s.repoDirs, live := s.live } hanc hndd
    refine ⟨?_, ?_, trivial, trivial, hp3⟩
    · rw [hp1]
      exact lookupA_eraseA_self hndr
    · rw [hp2]
  · intro t hlive hfalse
    simp only [removeOne, hn, hstat, ensureLiveCopyForRemove, hlive, hfalse]
  · intro hlive
    simp only [removeOne, hn, hstat, ensureLiveCopyForRemove, hlive]

/-! ### The orphan pass and live symlinks pointing outside the repository -/

theorem orphanVisit_repo (env : Env) (managed : List String)
    (matchers : List (List GlobTok)) (acc : FsState × DoctorReport) (k : String) :
    (orphanVisit env managed matchers acc k).1.repo = acc.1.repo := by
  simp only [orphanVisit]
  cases hl : lookupA k acc.1.live with
  | none => rfl
  | some e =>
    cases e with
    | dir => rfl
    | file c =>
      repeat' split
      all_goals first | rfl | simp_all
    | special =>
      repeat' split
      all_goals first | rfl | simp_all
    | symlink t =>
      repeat' split
      all_goals first | rfl | simp_all

theorem orphanVisit_live_ne {k k2 : String} (env : Env) (managed : List String)
    (matchers : List (List GlobTok)) (acc : FsState × DoctorReport) (hne : k ≠ k2) :
    lookupA k (orphanVisit env managed matchers acc k2).1.live = lookupA k acc.1.live := by
  simp only [orphanVisit]
  cases hl : lookupA k2 acc.1.live with
  | none => rfl
  | some e =>
    cases e with
    | dir => rfl
    | file c =>
      repeat' split
      all_goals first | rfl | simp_all
    | special =>
      repeat' split
      all_goals first | rfl | simp_all
    | symlink t =>
      repeat' split
      all_goals first
        | rfl
        | exact lookupA_eraseA_ne _ hne
        | exact lookupA_updateA_ne _ _ hne
        | simp_all

/-- A visited live symlink whose resolved absolute target does not lie
within the repository root is skipped: the walk callback returns its
accumulator unchanged. -/
theorem orphanVisit_inert {env : Env} {managed : List String} {matchers : List (List GlobTok)}
    {k rawT : String} (acc : FsState × DoctorReport)
    (hlv : lookupA k acc.1.live = some (.symlink rawT))
    (houts : pathWithin env.repoPath
        (absTarget rawT (pathDir (pathJoin env.xdg k))) ≠ .ok true) :
    orphanVisit env managed matchers acc k = acc := by
  simp only [orphanVisit, hlv]
  repeat' split
  all_goals first | rfl | simp_all

/-- Folding the walk callback over any key list never touches the key of
an outside-target live symlink, and yields exactly the fold over the key
list with that key dropped. -/
theorem orphanFold_skips {env : Env} {managed : List String} {matchers : List (List GlobTok)}
    {k rawT : String}
    (houts : pathWithin env.repoPath
        (absTarget rawT (pathDir (pathJoin env.xdg k))) ≠ .ok true) :
    ∀ (keys : List String) (acc : FsState × DoctorReport),
      lookupA k acc.1.live = some (.symlink rawT) →
      keys.foldl (orphanVisit env managed matchers) acc =
        (keys.filter (fun x => !(x == k))).foldl (orphanVisit env managed matchers) acc ∧
      lookupA k (keys.foldl (orphanVisit env managed matchers) acc).1.live =
        some (.symlink rawT) := by
  intro keys
  induction keys with
  | nil => exact fun acc h => ⟨rfl, h⟩
  | cons k2 rest ih =>
    intro acc h
    by_cases hk : k2 = k
    · subst hk
      have hin := @orphanVisit_inert env managed matchers k2 rawT acc h houts
      have hb : (k2 == k2) = true := beq_self_eq_true k2
      simp only [List.foldl_cons, hin, List.filter_cons, hb, Bool.not_true,
        Bool.false_eq_true, reduceIte]
      exact ih acc h
    · have hb : (k2 == k) = false := beq_eq_false_iff_ne.mpr hk
      have h2 : lookupA k (orphanVisit env managed matchers acc k2).1.live =
          some (.symlink rawT) := by
        rw [orphanVisit_live_ne env managed matchers acc (fun he => hk he.symm)]
        exact h
      simp only [List.foldl_cons, List.filter_cons, hb, Bool.not_false, reduceIte]
      exact ih (orphanVisit env managed matchers acc k2) h2

/-- C4: a live symlink whose cleaned absolute target does not lie lexically
within the cleaned absolute repository root is never touched by the
orphan-symlink pass: its live entry survives unchanged and the whole pass
(final state and both outcome buckets) equals the pass in which the walk
never visits that key at all. -/
theorem reconcileOrphan_outside_target_untouched {env : Env} {s : FsState}
    {managed : List String} {matchers : List (List GlobTok)} {k rawT : String}
    (hlv : lookupA k s.live = some (.symlink rawT))
    (houts : pathWithin env.repoPath
        (absTarget rawT (pathDir (pathJoin env.xdg k))) ≠ .ok true) :
    lookupA k (reconcileOrphanRepoSymlinks env s managed matchers).1.live
        = some (.symlink rawT) ∧
    reconcileOrphanRepoSymlinks env s managed matchers =
      (let keys := (((s.live.map Prod.fst).filter
          (fun x => !ancestorIgnored x matchers)).filter (fun x => !(x == k)))
       let res := keys.foldl (orphanVisit env managed matchers) (s, {})
       (res.1,
        { res.2 with
          unlinkedOrphanSymlink := sortStrings res.2.unlinkedOrphanSymlink,
          requireManualResolve := sortStrings res.2.requireManualResolve })) := by
  obtain ⟨heq, hpres⟩ := orphanFold_skips houts
    ((s.live.map Prod.fst).filter (fun x => !ancestorIgnored x matchers)) (s, {}) hlv
  constructor
  · exact hpres
  · simp only [reconcileOrphanRepoSymlinks]
    rw [heq]

theorem reconcileOrphan_outside_target_untouched_witness :
    lookupA "a" ((reconcileOrphanRepoSymlinks sampleEnv
        { repo := [], repoDirs := [], live := [("a", FsEntry.symlink "/elsewhere/x")] }
        [] []).1.live) = some (.symlink "/elsewhere/x") :=
  (@reconcileOrphan_outside_target_untouched sampleEnv
    { repo := [], repoDirs := [], live := [("a", FsEntry.symlink "/elsewhere/x")] }
    [] [] "a" "/elsewhere/x" (by decide) (by decide)).1

/-! ### Shape and frame lemmas for one managed-pass step -/

/-- Every iteration of the managed-path loop ends in one of three shapes:
replace the live entry with a symlink to the repository file, record
`didNotTouch`, or record `requireManualResolve` (the last two leave the
filesystem untouched). -/
theorem doctorStep_cases (env : Env) (acc : FsState × DoctorReport) (r2 : String) :
    doctorStep env acc r2 =
      ({ acc.1 with live := updateA r2 (.symlink (pathJoin env.repoPath r2)) acc.1.live },
       { acc.2 with replacedWithSymlink := acc.2.replacedWithSymlink ++ [r2] }) ∨
    doctorStep env acc r2 =
      (acc.1, { acc.2 with didNotTouch := acc.2.didNotTouch ++ [r2] }) ∨
    doctorStep env acc r2 =
      (acc.1, { acc.2 with requireManualResolve := acc.2.requireManualResolve ++ [r2] }) := by
  cases hs : statAbs env acc.1 evalFuel (pathJoin env.repoPath r2) with
  | notExist => exact Or.inr (Or.inr (by simp only [doctorStep, hs]))
  | err => exact Or.inr (Or.inr (by simp only [doctorStep, hs]))
  | found p e =>
    cases e with
    | dir => exact Or.inr (Or.inr (by simp only [doctorStep, hs]))
    | special => exact Or.inr (Or.inr (by simp only [doctorStep, hs]))
    | symlink t => exact Or.inr (Or.inr (by simp only [doctorStep, hs]))
    | file c =>
      cases hl : lookupA r2 acc.1.live with
      | none => exact Or.inl (by simp only [doctorStep, hs, hl])
      | some e2 =>
        cases e2 with
        | dir => exact Or.inr (Or.inr (by simp only [doctorStep, hs, hl]))
        | special => exact Or.inr (Or.inr (by simp only [doctorStep, hs, hl]))
        | symlink t2 =>
          cases hsp : symlinkPointsTo env acc.1 (pathJoin env.xdg r2) t2
              (pathJoin env.repoPath r2) with
          | error u => exact Or.inr (Or.inr (by simp only [doctorStep, hs, hl, hsp]))
          | ok b =>
            cases b with
            | false => exact Or.inr (Or.inr (by simp only [doctorStep, hs, hl, hsp]))
            | true => exact Or.inr (Or.inl (by simp only [doctorStep, hs, hl, hsp]))
        | file d2 =>
          cases hr1 : readFileAbs env acc.1 (pathJoin env.repoPath r2) with
          | none => exact Or.inr (Or.inr (by simp only [doctorStep, hs, hl, hr1]))
          | some lc =>
            cases hr2 : readFileAbs env acc.1 (pathJoin env.xdg r2) with
            | none => exact Or.inr (Or.inr (by simp only [doctorStep, hs, hl, hr1, hr2]))
            | some rc =>
              cases hb : lc == rc with
              | false => exact Or.inr (Or.inr (by
                  simp only [doctorStep, hs, hl, hr1, hr2, hb, Bool.false_eq_true, reduceIte]))
              | true => exact Or.inl (by
                  simp only [doctorStep, hs, hl, hr1, hr2, hb, reduceIte])

/-- The managed-path loop body never touches the repository tree, changes
the live tree only at its own key, and only appends to the report
buckets. -/
theorem doctorStep_frame (env : Env) (acc : FsState × DoctorReport) (r2 : String) :
    (doctorStep env acc r2).1.repo = acc.1.repo ∧
    (∀ k, k ≠ r2 → lookupA k (doctorStep env acc r2).1.live = lookupA k acc.1.live) ∧
    (∀ x ∈ acc.2.didNotTouch, x ∈ (doctorStep env acc r2).2.didNotTouch) ∧
    (∀ x ∈ acc.2.replacedWithSymlink, x ∈ (doctorStep env acc r2).2.replacedWithSymlink) ∧
    (∀ x ∈ acc.2.requireManualResolve, x ∈ (doctorStep env acc r2).2.requireManualResolve) := by
  rcases doctorStep_cases env acc r2 with h | h | h <;> rw [h]
  · exact ⟨rfl, fun k hk => lookupA_updateA_ne _ _ hk, fun x hx => hx,
      fun x hx => List.mem_append_left _ hx, fun x hx => hx⟩
  · exact ⟨rfl, fun k _ => rfl, fun x hx => List.mem_append_left _ hx, fun x hx => hx,
      fun x hx => hx⟩
  · exact ⟨rfl, fun k _ => rfl, fun x hx => hx, fun x hx => hx,
      fun x hx => List.mem_append_left _ hx⟩

/-- A managed key whose repository file and live file are both regular but
hold different contents is classified `requireManualResolve`, with the
whole filesystem state untouched. -/
theorem doctorStep_divergent {env : Env} {acc : FsState × DoctorReport} {rel c d : String}
    (henv : envWF env) (hrel : goodRelStr rel)
    (h1 : lookupA rel acc.1.repo = some (.file c))
    (h2 : lookupA rel acc.1.live = some (.file d)) (hcd : c ≠ d) :
    doctorStep env acc rel =
      (acc.1, { acc.2 with requireManualResolve := acc.2.requireManualResolve ++ [rel] }) := by
  have hstat : statAbs env acc.1 evalFuel (pathJoin env.repoPath rel) =
      .found (pathJoin env.repoPath rel) (.file c) := by
    rw [show evalFuel = 39 + 1 from rfl]
    exact statAbs_join_repo henv hrel h1 (fun t h => FsEntry.noConfusion h)
  have hr1 : readFileAbs env acc.1 (pathJoin env.repoPath rel) = some c :=
    readFileAbs_join_repo henv hrel h1
  have hr2 : readFileAbs env acc.1 (pathJoin env.xdg rel) = some d :=
    readFileAbs_join_live henv hrel h2
  have hb : (c == d) = false := beq_eq_false_iff_ne.mpr hcd
  simp only [doctorStep, hstat, h2, hr1, hr2, hb, Bool.false_eq_true, reduceIte]

/-- Through the whole managed pass, a key with a regular repository file
and a divergent regular live file keeps both files and lands in
`requireManualResolve`. -/
theorem doctorFold_divergent {env : Env} {rel c d : String}
    (henv : envWF env) (hrel : goodRelStr rel) (hcd : c ≠ d) :
    ∀ (ms : List String) (acc : FsState × DoctorReport),
      lookupA rel acc.1.repo = some (.file c) →
      lookupA rel acc.1.live = some (.file d) →
      (ms.foldl (doctorStep env) acc).1.repo = acc.1.repo ∧
      lookupA rel (ms.foldl (doctorStep env) acc).1.live = some (.file d) ∧
      (rel ∈ ms → rel ∈ (ms.foldl (doctorStep env) acc).2.requireManualResolve) ∧
      (∀ x ∈ acc.2.requireManualResolve,
        x ∈ (ms.foldl (doctorStep env) acc).2.requireManualResolve) := by
  intro ms
  induction ms with
  | nil =>
    exact fun acc h1 h2 =>
      ⟨rfl, h2, fun h => absurd h (List.not_mem_nil rel), fun x hx => hx⟩
  | cons r2 rest ih =>
    intro acc h1 h2
    simp only [List.foldl_cons]
    obtain ⟨hfr, hfl, _, _, hfrm⟩ := doctorStep_frame env acc r2
    by_cases hr : r2 = rel
    · subst hr
      have hstep := doctorStep_divergent henv hrel h1 h2 hcd
      have h1n : lookupA r2 (doctorStep env acc r2).1.repo = some (.file c) := by
        rw [hstep]
        exact h1
      have h2n : lookupA r2 (doctorStep env acc r2).1.live = some (.file d) := by
        rw [hstep]
        exact h2
      obtain ⟨ha, hb, _, hd2⟩ := ih (doctorStep env acc r2) h1n h2n
      refine ⟨?_, hb, fun _ => ?_, fun x hx => hd2 x (hfrm x hx)⟩
      · rw [ha, hstep]
      · refine hd2 r2 ?_
        rw [hstep]
        exact List.mem_append_right _ (List.mem_singleton.mpr rfl)
    · have h1n : lookupA rel (doctorStep env acc r2).1.repo = some (.file c) := by
        rw [hfr]
        exact h1
      have h2n : lookupA rel (doctorStep env acc r2).1.live = some (.file d) := by
        rw [hfl rel (fun he => hr he.symm)]
        exact h2
      obtain ⟨ha, hb, hc2, hd2⟩ := ih (doctorStep env acc r2) h1n h2n
      refine ⟨ha.trans hfr, hb, ?_, fun x hx => hd2 x (hfrm x hx)⟩
      intro hmem2
      rcases List.mem_cons.mp hmem2 with he | he
      · exact absurd he.symm hr
      · exact hc2 he

/-! ### The orphan pass leaves non-symlink and managed live entries alone -/

/-- A visited key whose live entry is a regular file is skipped by the
walk callback. -/
theorem orphanVisit_inert_file {env : Env} {managed : List String}
    {matchers : List (List GlobTok)} {k d : String} (acc : FsState × DoctorReport)
    (hl : lookupA k acc.1.live = some (.file d)) :
    orphanVisit env managed matchers acc k = acc := by
  simp only [orphanVisit, hl]
  repeat' split
  all_goals first | rfl | simp_all

/-- Through the orphan pass, the repository tree and a live regular file
at `rel` are preserved. -/
theorem orphanFold_file {env : Env} {managed : List String}
    {matchers : List (List GlobTok)} {rel d : String} :
    ∀ (keys : List String) (acc : FsState × DoctorReport),
      lookupA rel acc.1.live = some (.file d) →
      (keys.foldl (orphanVisit env managed matchers) acc).1.repo = acc.1.repo ∧
      lookupA rel (keys.foldl (orphanVisit env managed matchers) acc).1.live =
        some (.file d) := by
  intro keys
  induction keys with
  | nil => exact fun acc h => ⟨rfl, h⟩
  | cons k2 rest ih =>
    intro acc h
    simp only [List.foldl_cons]
    have hrepo2 := orphanVisit_repo env managed matchers acc k2
    by_cases hk : k2 = rel
    · subst hk
      have hin := @orphanVisit_inert_file env managed matchers k2 d acc h
      rw [hin]
      exact ih acc h
    · have h2 : lookupA rel (orphanVisit env managed matchers acc k2).1.live =
          some (.file d) := by
        rw [orphanVisit_live_ne env managed matchers acc (fun he => hk he.symm)]
        exact h
      obtain ⟨ha, hb⟩ := ih _ h2
      exact ⟨ha.trans hrepo2, hb⟩

theorem reconcileOrphan_file_frame {env : Env} {s2 : FsState} {managed : List String}
    {matchers : List (List GlobTok)} {rel d : String}
    (h : lookupA rel s2.live = some (.file d)) :
    (reconcileOrphanRepoSymlinks env s2 managed matchers).1.repo = s2.repo ∧
    lookupA rel (reconcileOrphanRepoSymlinks env s2 managed matchers).1.live =
      some (.file d) := by
  obtain ⟨ha, hb⟩ := orphanFold_file
    ((s2.live.map Prod.fst).filter (fun x => !ancestorIgnored x matchers)) (s2, {}) h
  exact ⟨ha, hb⟩

/-- C1: a managed path whose repository file is regular and whose live
entry is a regular file with byte-wise different content is never mutated
by the doctor command — the repository tree is unchanged and the divergent
live file survives as-is — and the path is classified into the
`requireManualResolve` bucket of the final report. -/
theorem cmdDoctor_divergent_file_manual {env : Env} {s : FsState} {managed : List String}
    {matchers : List (List GlobTok)} {rel c d : String}
    (henv : envWF env) (hrel : goodRelStr rel) (hmem : rel ∈ managed)
    (hrepo : lookupA rel s.repo = some (.file c))
    (hlive : lookupA rel s.live = some (.file d)) (hcd : c ≠ d) :
    (cmdDoctorWithRepo env s managed matchers).state.repo = s.repo ∧
    lookupA rel (cmdDoctorWithRepo env s managed matchers).state.live = some (.file d) ∧
    rel ∈ (cmdDoctorWithRepo env s managed matchers).report.requireManualResolve := by
  have hne : ¬ (managed.isEmpty = true) := by
    cases managed with
    | nil => exact absurd hmem (List.not_mem_nil rel)
    | cons a t => simp
  obtain ⟨hm1, hm2, hm3, _⟩ :=
    doctorFold_divergent henv hrel hcd managed (s, ({} : DoctorReport)) hrepo hlive
  obtain ⟨ho1, ho2⟩ := @reconcileOrphan_file_frame env
    (managed.foldl (doctorStep env) (s, ({} : DoctorReport))).1 managed matchers rel d hm2
  simp only [cmdDoctorWithRepo, doctorManagedPass]
  rw [if_neg hne]
  refine ⟨ho1.trans hm1, ho2, ?_⟩
  exact List.mem_append_left _ (hm3 hmem)

theorem cmdDoctor_divergent_file_manual_witness :
    "a" ∈ (cmdDoctorWithRepo sampleEnv
        { repo := [("a", FsEntry.file "x")], repoDirs := [],
          live := [("a", FsEntry.file "y")] } ["a"] []).report.requireManualResolve :=
  (@cmdDoctor_divergent_file_manual sampleEnv
    { repo := [("a", FsEntry.file "x")], repoDirs := [], live := [("a", FsEntry.file "y")] }
    ["a"] [] "a" "x" "y" sampleEnv_wf ⟨[['a']], by decide, by decide, by decide⟩
    (by decide) (by decide) (by decide) (by decide)).2.2

/-! ### One full doctor run over a managed key -/

theorem removeOne_ensures_live_copy_witness :
    lookupA "a/b" ((removeOne sampleEnv
        ({ repo := [("a/b", FsEntry.file "x")], repoDirs := ["a"], live := [] },
          ({} : OperationReport)) "a/b").1.repo) = none ∧
    lookupA "a/b" ((removeOne sampleEnv
        ({ repo := [("a/b", FsEntry.file "x")], repoDirs := ["a"], live := [] },
          ({} : OperationReport)) "a/b").1.live) = some (.file "x") :=
  ⟨((@removeOne_ensures_live_copy sampleEnv
      { repo := [("a/b", FsEntry.file "x")], repoDirs := ["a"], live := [] }
      {} "a/b" "a/b" "x" sampleEnv_wf
      ⟨[['a'], ['b']], by decide, by decide, by decide⟩
      (by decide) (by decide) (by decide) (by decide) (by decide)).1 (by decide)).1,
   ((@removeOne_ensures_live_copy sampleEnv
      { repo := [("a/b", FsEntry.file "x")], repoDirs := ["a"], live := [] }
      {} "a/b" "a/b" "x" sampleEnv_wf
      ⟨[['a'], ['b']], by decide, by decide, by decide⟩
      (by decide) (by decide) (by decide) (by decide) (by decide)).1 (by decide)).2.1⟩

end Cfgs
